import Mathlib

/-!
# pacman-c: a shallow embedding of `main.c`

## Numbers

A C `float` is an IEEE 754 binary32 number and a `double` a binary64 number.  A
finite value of either type is a rational number, and every arithmetic operation
of the program is the exact operation followed by a rounding to the nearest
representable value, ties to even (`f32`, `f64`; each operation is evaluated in
its own type, a product and a sum are not fused, and a `float` operand of a `double`
operation is converted exactly).
Infinities and NaN are not represented: a result of magnitude `2 ^ 128` or more
stays finite here.  A C `int` is a mathematical integer (`Int`); signed overflow
and an out-of-range `(int)` conversion are undefined behaviour in C.  The theorems
whose truth depends on either carry a range hypothesis.

## Loops

The two `while` loops of `angle_diff` need not terminate in `float` arithmetic:
for a large `diff` the sum `diff + 360.0f` rounds back to `diff`.  They are
functions of a fuel (the number of loop tests allowed), and `none` is "not returned
within the fuel".

## Library

`atan2f` (libm) and `M_PI` (`math.h`) are not part of the repository; the
rasteriser takes them as parameters.
-/

namespace Pacman

/-! ## Floating point -/

/-- Rounding of a rational to the nearest integer, ties to even. -/
def round_even (y : ℚ) : Int :=
  if y - ⌊y⌋ < 1 / 2 then ⌊y⌋
  else if y - ⌊y⌋ > 1 / 2 then ⌊y⌋ + 1
  else if ⌊y⌋ % 2 = 0 then ⌊y⌋ else ⌊y⌋ + 1

/-- Exponent of the unit in the last place at `x`, for a format of precision `p`
and least normal exponent `emin`: below `2 ^ emin` the numbers are subnormal. -/
def fp_quantum (p : Nat) (emin : Int) (x : ℚ) : Int :=
  max (Int.log 2 |x|) emin - ((p : Int) - 1)

/-- Rounding to the format of precision `p` and least normal exponent `emin`, to
nearest, ties to even. -/
def fp_round (p : Nat) (emin : Int) (x : ℚ) : ℚ :=
  (round_even (x / 2 ^ fp_quantum p emin x) : ℚ) * 2 ^ fp_quantum p emin x

/-- Rounding to binary32, the C `float`. -/
def f32 (x : ℚ) : ℚ := fp_round 24 (-126) x

/-- Rounding to binary64, the C `double`. -/
def f64 (x : ℚ) : ℚ := fp_round 53 (-1022) x

/-! ## Constants (`#define`s of `main.c`) -/

/-- Source: `#define WINDOW_WIDTH 816`. -/
def WINDOW_WIDTH : ℚ := 816

/-- Source: `#define WINDOW_HEIGHT 816`. -/
def WINDOW_HEIGHT : ℚ := 816

/-- Source: `#define TILE_SIZE 24.0f`. -/
def TILE_SIZE : ℚ := 24

/-- Source: `#define PLAYER_RADIUS 12.0f`. -/
def PLAYER_RADIUS : ℚ := 12

/-- Source: `#define SPEED (PLAYER_RADIUS / 3.0f)`. -/
def SPEED : ℚ := f32 (PLAYER_RADIUS / 3)

/-- Source: `#define MOUTH_SPEED 10.0f`. -/
def MOUTH_SPEED : ℚ := 10

/-! ## Data model -/

/-- Source: `typedef struct { float x; float y; } Vec2;`. -/
structure Vec2 where
  x : ℚ
  y : ℚ
deriving DecidableEq

/-- Source: `typedef struct { int col; int row; } Tile;`. -/
structure Tile where
  col : Int
  row : Int
deriving DecidableEq

/-- The C conversion `(int)f` of a `float`: the fractional part is discarded
(truncation toward zero). -/
def float_to_int (f : ℚ) : Int :=
  if 0 ≤ f then ⌊f⌋ else ⌈f⌉

/-! ## `angle_diff` -/

/-- Source: the loop `while (diff < -180.0f) diff += 360.0f;` of `angle_diff`. -/
def wrap_up : Nat → ℚ → Option ℚ
  | 0, _ => none
  | fuel + 1, diff => if diff < -180 then wrap_up fuel (f32 (diff + 360)) else some diff

/-- Source: the loop `while (diff > 180.0f) diff -= 360.0f;` of `angle_diff`. -/
def wrap_down : Nat → ℚ → Option ℚ
  | 0, _ => none
  | fuel + 1, diff => if diff > 180 then wrap_down fuel (f32 (diff - 360)) else some diff

/-- Source: `float angle_diff(float a, float b)`. -/
def angle_diff (fuel : Nat) (a b : ℚ) : Option ℚ :=
  let diff := f32 (a - b)
  match wrap_up fuel diff with
  | none => none
  | some diff =>
    match wrap_down fuel diff with
    | none => none
    | some diff => some |diff|

/-! ## Mouth oscillator -/

/-- Source: `void update_pacman_mouth_angle(bool *mouth_opening, float *mouth_angle)`.
The two out-parameters are returned as a pair `(mouth_opening, mouth_angle)`. -/
def update_pacman_mouth_angle (mouth_opening : Bool) (mouth_angle : ℚ) : Bool × ℚ :=
  if mouth_opening then
    let mouth_angle := f32 (mouth_angle + MOUTH_SPEED)
    if mouth_angle ≥ 45 then (false, 45) else (mouth_opening, mouth_angle)
  else
    let mouth_angle := f32 (mouth_angle - MOUTH_SPEED)
    if mouth_angle ≤ 5 then (true, 5) else (mouth_opening, mouth_angle)

/-- The oscillator applied `n` times, starting from `(mouth_opening, mouth_angle)`. -/
def mouth_steps : Nat → Bool × ℚ → Bool × ℚ
  | 0, s => s
  | n + 1, s => mouth_steps n (update_pacman_mouth_angle s.1 s.2)

/-! ## Input, movement, wrap -/

/-- The eight entries of the SDL keyboard state array that `handle_keypress` reads. -/
structure KeyState where
  W : Bool
  UP : Bool
  S : Bool
  DOWN : Bool
  A : Bool
  LEFT : Bool
  D : Bool
  RIGHT : Bool
deriving DecidableEq

/-- No key held. -/
def no_keys : KeyState := ⟨false, false, false, false, false, false, false, false⟩

/-- Only the "right" arrow key held. -/
def only_right : KeyState := ⟨false, false, false, false, false, false, false, true⟩

/-- Source: `void handle_keypress(Vec2 *player_direction, float *desired_angle)`.
The keyboard state is an argument; the two out-parameters are returned as a pair. -/
def handle_keypress (keystate : KeyState) (player_direction : Vec2) (desired_angle : ℚ) :
    Vec2 × ℚ :=
  let new_direction := player_direction
  let (new_direction, desired_angle, key_pressed) : Vec2 × ℚ × Bool :=
    if keystate.W || keystate.UP then (⟨0, -1⟩, -90, true)
    else if keystate.S || keystate.DOWN then (⟨0, 1⟩, 90, true)
    else if keystate.A || keystate.LEFT then (⟨-1, 0⟩, 180, true)
    else if keystate.D || keystate.RIGHT then (⟨1, 0⟩, 0, true)
    else (new_direction, desired_angle, false)
  -- Prevent diagonal movement
  let new_direction : Vec2 :=
    if new_direction.x ≠ 0 ∧ new_direction.y ≠ 0 then ⟨new_direction.x, 0⟩ else new_direction
  if key_pressed then (⟨new_direction.x, new_direction.y⟩, desired_angle)
  else (player_direction, desired_angle)

/-- Source: `void update_player_position(Vec2 *player_pos, Vec2 *player_direction)`:
a `float` product and a `float` sum for each coordinate. -/
def update_player_position (player_pos player_direction : Vec2) : Vec2 :=
  ⟨f32 (player_pos.x + f32 (SPEED * player_direction.x)),
   f32 (player_pos.y + f32 (SPEED * player_direction.y))⟩

/-- Source: the "Screen wrapping" block of the main loop (`main`, after
`update_player_position`). -/
def screen_wrap (player_pos : Vec2) : Vec2 :=
  let x :=
    if player_pos.x < f32 (-PLAYER_RADIUS * 2) then f32 (WINDOW_WIDTH + PLAYER_RADIUS)
    else if player_pos.x > f32 (WINDOW_WIDTH + f32 (PLAYER_RADIUS * 2)) then -PLAYER_RADIUS
    else player_pos.x
  let y :=
    if player_pos.y < f32 (-PLAYER_RADIUS * 2) then f32 (WINDOW_HEIGHT + PLAYER_RADIUS)
    else if player_pos.y > f32 (WINDOW_HEIGHT + f32 (PLAYER_RADIUS * 2)) then -PLAYER_RADIUS
    else player_pos.y
  ⟨x, y⟩

/-- Source: `Tile get_tile(Vec2 pos)`: a `float` quotient converted to `int`. -/
def get_tile (pos : Vec2) : Tile :=
  ⟨float_to_int (f32 (pos.x / TILE_SIZE)), float_to_int (f32 (pos.y / TILE_SIZE))⟩

/-! ## Rasteriser -/

/-- A C `for` loop over the indices of `l`, in order, whose body plots a list of
points: the points of all iterations, or `none` when an iteration does not return. -/
def for_each {α : Type} : List Nat → (Nat → Option (List α)) → Option (List α)
  | [], _ => some []
  | i :: l, body =>
    match body i with
    | none => none
    | some xs =>
      match for_each l body with
      | none => none
      | some ys => some (xs ++ ys)

/-- Source: the statement `float angle = atan2f(dy_f, dx_f) * (180.0f / M_PI);` of
`draw_circle`, with `dx_f = (float)dx` and `dy_f = (float)dy`.  `M_PI` is a `double`,
so the quotient and the product are `double` operations and the assignment rounds
the product to `float`. -/
def pixel_angle (atan2f : ℚ → ℚ → ℚ) (M_PI : ℚ) (dx dy : Int) : ℚ :=
  let dx_f : ℚ := f32 (dx : ℚ)
  let dy_f : ℚ := f32 (dy : ℚ)
  f32 (f64 (atan2f dy_f dx_f * f64 (180 / M_PI)))

/-- Source: `void draw_circle(Vec2 center, float radius, float mouth_angle,
Vec2 player_direction, float desired_angle)`.  The result is the list of the points
passed to `SDL_RenderDrawPoint`, in the order of the calls, or `none` when a call of
`angle_diff` does not return within the fuel.  `atan2f` and `M_PI` come from libm
and `math.h`. -/
def draw_circle (atan2f : ℚ → ℚ → ℚ) (M_PI : ℚ) (fuel : Nat) (center : Vec2)
    (radius mouth_angle : ℚ) (_player_direction : Vec2) (desired_angle : ℚ) :
    Option (List (Int × Int)) :=
  let r := float_to_int radius
  let cx := float_to_int center.x
  let cy := float_to_int center.y
  for_each (List.range (r * 2).toNat) fun (w : Nat) =>
    for_each (List.range (r * 2).toNat) fun (h : Nat) =>
      let dx : Int := (w : Int) - r
      let dy : Int := (h : Int) - r
      let angle := pixel_angle atan2f M_PI dx dy
      match angle_diff fuel angle desired_angle with
      | none => none
      | some delta_angle =>
        if dx * dx + dy * dy ≤ r * r ∧ delta_angle > f32 (mouth_angle / 2) then
          some [(cx + dx, cy + dy)]
        else some []

/-! ## The frame loop of `main` -/

/-- The local variables of `main` that live across frames. -/
structure GameState where
  player_pos : Vec2
  player_direction : Vec2
  desired_angle : ℚ
  pacman_mouth_angle : ℚ
  pacman_mouth_opening : Bool
deriving DecidableEq

/-- Source: the initialisers at the top of `main`. -/
def initial_state : GameState :=
  { player_pos := ⟨f32 (WINDOW_WIDTH / 2), f32 (WINDOW_HEIGHT / 2)⟩
    player_direction := ⟨0, 0⟩
    desired_angle := 0
    pacman_mouth_angle := 45
    pacman_mouth_opening := false }

/-- Source: one iteration of the `while (!quit)` loop of `main`, restricted to the
state it changes: `handle_keypress`, `update_player_position`, the screen wrap and
`update_pacman_mouth_angle`.  The rendering calls change no variable of `main`. -/
def frame (keystate : KeyState) (s : GameState) : GameState :=
  let (player_direction, desired_angle) :=
    handle_keypress keystate s.player_direction s.desired_angle
  let player_pos := update_player_position s.player_pos player_direction
  let player_pos := screen_wrap player_pos
  let (mouth_opening, mouth_angle) :=
    update_pacman_mouth_angle s.pacman_mouth_opening s.pacman_mouth_angle
  { player_pos := player_pos
    player_direction := player_direction
    desired_angle := desired_angle
    pacman_mouth_angle := mouth_angle
    pacman_mouth_opening := mouth_opening }

/-- The frame loop run over a sequence of keyboard states, one per frame. -/
def run_frames (keys : List KeyState) (s : GameState) : GameState :=
  keys.foldl (fun s k => frame k s) s

/-- The five directions of the data model: the four axis directions and rest. -/
def axis_direction (d : Vec2) : Prop :=
  d = ⟨0, -1⟩ ∨ d = ⟨0, 1⟩ ∨ d = ⟨-1, 0⟩ ∨ d = ⟨1, 0⟩ ∨ d = ⟨0, 0⟩

instance (d : Vec2) : Decidable (axis_direction d) := by
  unfold axis_direction; infer_instance

/-- A coordinate inside the band the screen wrap keeps positions in. -/
def in_wrap_band (c : ℚ) : Prop := -24 ≤ c ∧ c ≤ 840

/-- The scenario of the end-to-end property: one frame with only "right" held, from
the initial state, followed by `N` frames with no key held. -/
def right_then_idle (N : Nat) : GameState :=
  run_frames (List.replicate N no_keys) (frame only_right initial_state)

/-- The call `angle_diff(a, b)` returns `v`. -/
def angle_diff_returns (a b v : ℚ) : Prop := ∃ fuel, angle_diff fuel a b = some v

/-- The call of `draw_circle` returns after plotting the points `L`. -/
def draw_circle_returns (atan2f : ℚ → ℚ → ℚ) (M_PI : ℚ) (center : Vec2)
    (radius mouth_angle : ℚ) (dir : Vec2) (desired_angle : ℚ) (L : List (Int × Int)) :
    Prop :=
  ∃ fuel, draw_circle atan2f M_PI fuel center radius mouth_angle dir desired_angle = some L

/-! ## Facts about rounding -/

theorem round_even_cases (y : ℚ) : round_even y = ⌊y⌋ ∨ round_even y = ⌊y⌋ + 1 := by
  unfold round_even; split_ifs <;> simp

theorem round_even_err (y : ℚ) : |(round_even y : ℚ) - y| ≤ 1 / 2 := by
  have h1 := Int.floor_le y
  have h2 := Int.lt_floor_add_one y
  unfold round_even
  rw [abs_le]
  split_ifs with a b c
  · constructor <;> linarith
  · push_cast; constructor <;> linarith
  · have : y - ⌊y⌋ = 1 / 2 := le_antisymm (not_lt.mp b) (not_lt.mp a)
    constructor <;> linarith
  · have : y - ⌊y⌋ = 1 / 2 := le_antisymm (not_lt.mp b) (not_lt.mp a)
    push_cast; constructor <;> linarith

/-- The integer within less than a half of `y` is its rounding. -/
theorem round_even_eq (y : ℚ) (n : Int) (h : |y - n| < 1 / 2) : round_even y = n := by
  have he := round_even_err y
  rw [abs_lt] at h
  rw [abs_le] at he
  have h1 : ((round_even y - n : ℤ) : ℚ) < 1 := by push_cast; linarith
  have h2 : (-1 : ℚ) < ((round_even y - n : ℤ) : ℚ) := by push_cast; linarith
  have h3 : round_even y - n < 1 := by exact_mod_cast h1
  have h4 : -1 < round_even y - n := by exact_mod_cast h2
  omega

theorem round_even_intCast (n : Int) : round_even (n : ℚ) = n :=
  round_even_eq _ n (by simp)

theorem round_even_mono {y z : ℚ} (h : y ≤ z) : round_even y ≤ round_even z := by
  have hfl : ⌊y⌋ ≤ ⌊z⌋ := Int.floor_le_floor h
  rcases lt_or_eq_of_le hfl with hlt | heq
  · have a := round_even_cases y
    have b := round_even_cases z
    rcases a with a | a <;> rcases b with b | b <;> omega
  · unfold round_even
    rw [heq]
    split_ifs <;> first | omega | (exfalso; linarith)

theorem round_even_le {y : ℚ} {n : Int} (h : y ≤ n) : round_even y ≤ n := by
  have := round_even_mono h
  rwa [round_even_intCast] at this

theorem le_round_even {y : ℚ} {n : Int} (h : (n : ℚ) ≤ y) : n ≤ round_even y := by
  have := round_even_mono h
  rwa [round_even_intCast] at this

theorem round_even_neg (y : ℚ) : round_even (-y) = -round_even y := by
  by_cases hi : (⌊y⌋ : ℚ) = y
  · rw [← hi, ← Int.cast_neg, round_even_intCast, round_even_intCast]
  · have h1 := Int.floor_le y
    have h2 := Int.lt_floor_add_one y
    have hlt : (⌊y⌋ : ℚ) < y := lt_of_le_of_ne h1 hi
    have hf : ⌊-y⌋ = -⌊y⌋ - 1 := by
      rw [Int.floor_eq_iff]; push_cast; constructor <;> linarith
    unfold round_even
    rw [hf]
    push_cast
    split_ifs <;> first | omega | (exfalso; linarith)


theorem two_zpow_pos (k : Int) : (0 : ℚ) < 2 ^ k := zpow_pos (by norm_num) k

theorem log_two_eq {r : ℚ} {e : Int} (h1 : (2 : ℚ) ^ e ≤ r) (h2 : r < 2 ^ (e + 1)) :
    Int.log 2 r = e := by
  have hr : 0 < r := lt_of_lt_of_le (two_zpow_pos e) h1
  have a : e ≤ Int.log 2 r := by
    rw [← Int.zpow_le_iff_le_log (by norm_num) hr]; simpa using h1
  have b : Int.log 2 r < e + 1 := by
    rw [← Int.lt_zpow_iff_log_lt (by norm_num) hr]; simpa using h2
  omega

theorem two_zpow_log_le {r : ℚ} (hr : 0 < r) : (2 : ℚ) ^ Int.log 2 r ≤ r := by
  simpa using Int.zpow_log_le_self (b := 2) (by norm_num) hr

theorem lt_two_zpow_log (r : ℚ) : r < (2 : ℚ) ^ (Int.log 2 r + 1) := by
  simpa using Int.lt_zpow_succ_log_self (b := 2) (by norm_num) r

theorem log_two_lt {r : ℚ} {k : Int} (hr : 0 < r) (h : r < 2 ^ k) : Int.log 2 r < k := by
  rw [← Int.lt_zpow_iff_log_lt (by norm_num) hr]; simpa using h

theorem fp_round_zero (p : Nat) (emin : Int) : fp_round p emin 0 = 0 := by
  unfold fp_round
  simp [round_even_intCast, show round_even 0 = 0 from by
    have := round_even_intCast 0; simpa using this]

theorem fp_quantum_neg (p : Nat) (emin : Int) (x : ℚ) :
    fp_quantum p emin (-x) = fp_quantum p emin x := by
  unfold fp_quantum; rw [abs_neg]

theorem fp_round_neg (p : Nat) (emin : Int) (x : ℚ) :
    fp_round p emin (-x) = -fp_round p emin x := by
  unfold fp_round
  rw [fp_quantum_neg, neg_div, round_even_neg]
  push_cast; ring

theorem fp_round_err (p : Nat) (emin : Int) (x : ℚ) :
    |fp_round p emin x - x| ≤ 2 ^ (fp_quantum p emin x - 1) := by
  unfold fp_round
  set Q := fp_quantum p emin x with hQ
  have hp := two_zpow_pos Q
  have e1 : (round_even (x / 2 ^ Q) : ℚ) * 2 ^ Q - x
      = ((round_even (x / 2 ^ Q) : ℚ) - x / 2 ^ Q) * 2 ^ Q := by
    field_simp
  have e2 : (2 : ℚ) ^ (Q - 1) = 1 / 2 * 2 ^ Q := by
    rw [zpow_sub₀ (by norm_num)]; simp; ring
  rw [e1, abs_mul, abs_of_pos hp, e2]
  exact mul_le_mul_of_nonneg_right (round_even_err _) hp.le

theorem fp_quantum_le (p : Nat) (emin : Int) {x : ℚ} {k : Int} (hx : x ≠ 0)
    (h : |x| < 2 ^ (k + 1)) (hk : emin ≤ k) : fp_quantum p emin x ≤ k - ((p : Int) - 1) := by
  have := log_two_lt (abs_pos.mpr hx) h
  unfold fp_quantum
  have : max (Int.log 2 |x|) emin ≤ k := max_le (by omega) hk
  omega

theorem fp_quantum_eq (p : Nat) (emin : Int) {x : ℚ} {e : Int}
    (h1 : (2 : ℚ) ^ e ≤ |x|) (h2 : |x| < 2 ^ (e + 1)) (he : emin ≤ e) :
    fp_quantum p emin x = e - ((p : Int) - 1) := by
  unfold fp_quantum
  rw [log_two_eq h1 h2, max_eq_left he]

/-- Evaluation of a rounding once the binade of `x` is known. -/
theorem fp_round_eval (p : Nat) (emin : Int) {x : ℚ} {e : Int}
    (h1 : (2 : ℚ) ^ e ≤ |x|) (h2 : |x| < 2 ^ (e + 1)) (he : emin ≤ e) :
    fp_round p emin x
      = (round_even (x / 2 ^ (e - ((p : Int) - 1))) : ℚ) * 2 ^ (e - ((p : Int) - 1)) := by
  unfold fp_round
  rw [fp_quantum_eq p emin h1 h2 he]

/-- A multiple of `2 ^ q` with fewer than `p` significant bits is not changed. -/
theorem fp_round_exact (p : Nat) (emin : Int) (m q : Int) (hm : |m| < 2 ^ p)
    (hq : emin - ((p : Int) - 1) ≤ q) :
    fp_round p emin ((m : ℚ) * 2 ^ q) = (m : ℚ) * 2 ^ q := by
  by_cases h0 : m = 0
  · subst h0; simp [fp_round_zero]
  set x : ℚ := (m : ℚ) * 2 ^ q with hx
  have hxne : x ≠ 0 := by
    rw [hx]; exact mul_ne_zero (by exact_mod_cast h0) (two_zpow_pos q).ne'
  have hmq : |(m : ℚ)| < 2 ^ (p : Int) := by
    have : ((|m| : ℤ) : ℚ) < ((2 ^ p : ℤ) : ℚ) := by exact_mod_cast hm
    simpa using this
  have habs : |x| < 2 ^ ((q + (p : Int) - 1) + 1) := by
    rw [hx, abs_mul, abs_of_pos (two_zpow_pos q)]
    have e : (2 : ℚ) ^ ((q + (p : Int) - 1) + 1) = 2 ^ (p : Int) * 2 ^ q := by
      rw [← zpow_add₀ (by norm_num)]; congr 1; ring
    rw [e]
    exact mul_lt_mul_of_pos_right hmq (two_zpow_pos q)
  have hQ : fp_quantum p emin x ≤ q := by
    have := fp_quantum_le p emin hxne habs (by omega)
    omega
  unfold fp_round
  set Q := fp_quantum p emin x with hQd
  obtain ⟨d, hd⟩ : ∃ d : ℕ, q = Q + d := ⟨(q - Q).toNat, by omega⟩
  have e1 : x / 2 ^ Q = ((m * 2 ^ d : ℤ) : ℚ) := by
    rw [hx, hd, zpow_add₀ (by norm_num)]
    field_simp
    ring
  rw [e1, round_even_intCast, hx, hd, zpow_add₀ (by norm_num)]
  push_cast
  rw [zpow_natCast]
  ring

theorem fp_round_nonneg (p : Nat) (emin : Int) {x : ℚ} (h : 0 ≤ x) :
    0 ≤ fp_round p emin x := by
  unfold fp_round
  apply mul_nonneg _ (two_zpow_pos _).le
  have : (0 : ℤ) ≤ round_even (x / 2 ^ fp_quantum p emin x) :=
    le_round_even (by simpa using div_nonneg h (two_zpow_pos _).le)
  exact_mod_cast this


theorem fp_round_mono_pos (p : Nat) (hp : 1 ≤ p) (emin : Int) {x y : ℚ} (hx : 0 < x)
    (h : x ≤ y) : fp_round p emin x ≤ fp_round p emin y := by
  have hy : 0 < y := lt_of_lt_of_le hx h
  have hlog : Int.log 2 |x| ≤ Int.log 2 |y| := by
    rw [abs_of_pos hx, abs_of_pos hy]; exact Int.log_mono_right hx h
  have hQ : fp_quantum p emin x ≤ fp_quantum p emin y := by
    unfold fp_quantum
    have : max (Int.log 2 |x|) emin ≤ max (Int.log 2 |y|) emin := max_le_max hlog le_rfl
    omega
  rcases lt_or_eq_of_le hQ with hlt | heq
  · -- different binades: the power of two between them separates the roundings
    have hey : max (Int.log 2 |y|) emin = Int.log 2 |y| := by
      unfold fp_quantum at hlt
      rcases max_cases (Int.log 2 |y|) emin with ⟨a, _⟩ | ⟨a, _⟩
      · exact a
      · exfalso
        have : emin ≤ max (Int.log 2 |x|) emin := le_max_right _ _
        omega
    set ex := max (Int.log 2 |x|) emin with hex
    set ey := Int.log 2 |y| with hey'
    have hQx : fp_quantum p emin x = ex - ((p : Int) - 1) := rfl
    have hQy : fp_quantum p emin y = ey - ((p : Int) - 1) := by
      unfold fp_quantum; rw [hey]
    have hlt' : ex + 1 ≤ ey := by rw [hQx, hQy] at hlt; omega
    have hxu : x < 2 ^ (ex + 1) := by
      have a := lt_two_zpow_log |x|
      rw [abs_of_pos hx] at a
      refine lt_of_lt_of_le a (zpow_le_zpow_right₀ (by norm_num) ?_)
      have : Int.log 2 |x| ≤ ex := le_max_left _ _
      rw [abs_of_pos hx] at this
      omega
    have hyl : (2 : ℚ) ^ ey ≤ y := by
      have a : (2 : ℚ) ^ Int.log 2 |y| ≤ |y| := two_zpow_log_le (abs_pos.mpr hy.ne')
      exact le_of_le_of_eq a (abs_of_pos hy)
    have up : fp_round p emin x ≤ 2 ^ (ex + 1) := by
      unfold fp_round
      rw [hQx]
      have hpq := two_zpow_pos (ex - ((p : Int) - 1))
      have e : (2 : ℚ) ^ (ex + 1) = ((2 ^ p : ℤ) : ℚ) * 2 ^ (ex - ((p : Int) - 1)) := by
        push_cast
        rw [← zpow_natCast, ← zpow_add₀ (by norm_num)]
        congr 1; ring
      rw [e]
      apply mul_le_mul_of_nonneg_right _ hpq.le
      have : round_even (x / 2 ^ (ex - ((p : Int) - 1))) ≤ (2 ^ p : ℤ) := by
        apply round_even_le
        rw [div_le_iff₀ hpq, ← e]
        exact hxu.le
      exact_mod_cast this
    have lo : (2 : ℚ) ^ ey ≤ fp_round p emin y := by
      unfold fp_round
      rw [hQy]
      have hpq := two_zpow_pos (ey - ((p : Int) - 1))
      have e : (2 : ℚ) ^ ey = ((2 ^ (p - 1) : ℤ) : ℚ) * 2 ^ (ey - ((p : Int) - 1)) := by
        push_cast
        rw [← zpow_natCast, ← zpow_add₀ (by norm_num)]
        congr 1
        have : ((p - 1 : ℕ) : ℤ) = (p : ℤ) - 1 := by omega
        rw [this]; ring
      rw [e]
      apply mul_le_mul_of_nonneg_right _ hpq.le
      have : (2 ^ (p - 1) : ℤ) ≤ round_even (y / 2 ^ (ey - ((p : Int) - 1))) := by
        apply le_round_even
        rw [le_div_iff₀ hpq, ← e]
        exact hyl
      exact_mod_cast this
    calc fp_round p emin x ≤ 2 ^ (ex + 1) := up
      _ ≤ 2 ^ ey := zpow_le_zpow_right₀ (by norm_num) hlt'
      _ ≤ fp_round p emin y := lo
  · unfold fp_round
    rw [heq]
    have hpq := two_zpow_pos (fp_quantum p emin y)
    apply mul_le_mul_of_nonneg_right _ hpq.le
    have : round_even (x / 2 ^ fp_quantum p emin y) ≤ round_even (y / 2 ^ fp_quantum p emin y) :=
      round_even_mono (div_le_div_of_nonneg_right h hpq.le)
    exact_mod_cast this

/-- Rounding is monotone. -/
theorem fp_round_mono (p : Nat) (hp : 1 ≤ p) (emin : Int) {x y : ℚ} (h : x ≤ y) :
    fp_round p emin x ≤ fp_round p emin y := by
  rcases lt_trichotomy 0 x with hx | hx | hx
  · exact fp_round_mono_pos p hp emin hx h
  · subst hx
    rw [fp_round_zero]
    exact fp_round_nonneg p emin h
  · rcases lt_or_le y 0 with hy | hy
    · have := fp_round_mono_pos p hp emin (neg_pos.mpr hy) (neg_le_neg h)
      rw [fp_round_neg, fp_round_neg] at this
      linarith
    · have a := fp_round_nonneg p emin hy
      have b := fp_round_nonneg p emin (neg_nonneg.mpr hx.le)
      rw [fp_round_neg] at b
      linarith

theorem fp_round_intCast (p : Nat) (emin : Int) (n : Int) (hn : |n| < 2 ^ p)
    (he : emin - ((p : Int) - 1) ≤ 0) : fp_round p emin (n : ℚ) = n := by
  have := fp_round_exact p emin n 0 hn he
  simpa using this

/-! ## Facts about `f32` and `f64` -/

theorem f32_zero : f32 0 = 0 := fp_round_zero 24 (-126)

theorem f32_neg (x : ℚ) : f32 (-x) = -f32 x := fp_round_neg 24 (-126) x

theorem f32_mono {x y : ℚ} (h : x ≤ y) : f32 x ≤ f32 y :=
  fp_round_mono 24 (by norm_num) (-126) h

theorem f64_mono {x y : ℚ} (h : x ≤ y) : f64 x ≤ f64 y :=
  fp_round_mono 53 (by norm_num) (-1022) h

theorem f32_exact (m q : Int) (h1 : -16777216 < m) (h2 : m < 16777216) (hq : -149 ≤ q) :
    f32 ((m : ℚ) * 2 ^ q) = (m : ℚ) * 2 ^ q := by
  apply fp_round_exact 24 (-126) m q
  · rw [abs_lt]; constructor <;> norm_num <;> omega
  · norm_num; omega

/-- Every integer of magnitude below `2 ^ 24` is a `float`. -/
theorem f32_int (n : Int) (h1 : -16777216 < n) (h2 : n < 16777216) : f32 (n : ℚ) = n := by
  have := f32_exact n 0 h1 h2 (by norm_num)
  simpa using this

/-- Every integer of magnitude below `2 ^ 53` is a `double`. -/
theorem f64_int (n : Int) (h1 : -9007199254740992 < n) (h2 : n < 9007199254740992) :
    f64 (n : ℚ) = n := by
  have := fp_round_exact 53 (-1022) n 0
    (by rw [abs_lt]; constructor <;> norm_num <;> omega) (by norm_num)
  simpa [f64] using this

theorem f32_le_int {x : ℚ} (n : Int) (h1 : -16777216 < n) (h2 : n < 16777216)
    (h : x ≤ n) : f32 x ≤ n := by
  have := f32_mono h
  rwa [f32_int n h1 h2] at this

theorem int_le_f32 {x : ℚ} (n : Int) (h1 : -16777216 < n) (h2 : n < 16777216)
    (h : (n : ℚ) ≤ x) : (n : ℚ) ≤ f32 x := by
  have := f32_mono h
  rwa [f32_int n h1 h2] at this

theorem f64_le_int {x : ℚ} (n : Int) (h1 : -9007199254740992 < n)
    (h2 : n < 9007199254740992) (h : x ≤ n) : f64 x ≤ n := by
  have := f64_mono h
  rwa [f64_int n h1 h2] at this

theorem int_le_f64 {x : ℚ} (n : Int) (h1 : -9007199254740992 < n)
    (h2 : n < 9007199254740992) (h : (n : ℚ) ≤ x) : (n : ℚ) ≤ f64 x := by
  have := f64_mono h
  rwa [f64_int n h1 h2] at this

/-- Evaluation of `f32 x`: `e` is the binade of `x` and `n` the integer nearest to
`x` in units of the last place. -/
theorem f32_eval (x : ℚ) (e n : Int) (h1 : (2 : ℚ) ^ e ≤ |x|) (h2 : |x| < 2 ^ (e + 1))
    (he : -126 ≤ e) (hn : |x / 2 ^ (e - 23) - n| < 1 / 2) :
    f32 x = (n : ℚ) * 2 ^ (e - 23) := by
  unfold f32
  rw [fp_round_eval 24 (-126) h1 h2 he]
  have : (e - (((24 : ℕ) : ℤ) - 1)) = e - 23 := by norm_num
  rw [this, round_even_eq _ n hn]

theorem SPEED_eq : SPEED = 4 := by
  unfold SPEED PLAYER_RADIUS
  have : (12 : ℚ) / 3 = ((4 : ℤ) : ℚ) := by norm_num
  rw [this, f32_int 4 (by norm_num) (by norm_num)]
  norm_num

theorem f32_ofNat_small (n : ℕ) (h : n < 16777216) : f32 (n : ℚ) = n := by
  have := f32_int (n : ℤ) (by omega) (by omega)
  simpa using this

/-! ## Facts about the oscillator -/

theorem update_pacman_mouth_angle_range (opening : Bool) (angle : ℚ)
    (h1 : 5 ≤ angle) (h2 : angle ≤ 45) :
    5 ≤ (update_pacman_mouth_angle opening angle).2 ∧
      (update_pacman_mouth_angle opening angle).2 ≤ 45 := by
  unfold update_pacman_mouth_angle MOUTH_SPEED
  cases opening
  · by_cases h : f32 (angle - 10) ≤ 5
    · norm_num [h]
    · simp only [Bool.false_eq_true, if_false, h]
      have hu : f32 (angle - 10) ≤ ((35 : ℤ) : ℚ) :=
        f32_le_int 35 (by norm_num) (by norm_num) (by push_cast; linarith)
      push_cast at hu
      constructor <;> linarith
  · by_cases h : f32 (angle + 10) ≥ 45
    · norm_num [h]
    · simp only [if_true, h, if_false]
      have hl : ((15 : ℤ) : ℚ) ≤ f32 (angle + 10) :=
        int_le_f32 15 (by norm_num) (by norm_num) (by push_cast; linarith)
      push_cast at hl
      constructor <;> linarith

theorem mouth_steps_range (n : Nat) (s : Bool × ℚ) (h1 : 5 ≤ s.2) (h2 : s.2 ≤ 45) :
    5 ≤ (mouth_steps n s).2 ∧ (mouth_steps n s).2 ≤ 45 := by
  induction n generalizing s with
  | zero => exact ⟨h1, h2⟩
  | succ n ih =>
    have h := update_pacman_mouth_angle_range s.1 s.2 h1 h2
    exact ih _ h.1 h.2

theorem mouth_close_step (n : ℕ) (h : n < 16777216) :
    update_pacman_mouth_angle false ((n : ℚ) + 10) =
      if (n : ℚ) ≤ 5 then (true, 5) else (false, (n : ℚ)) := by
  unfold update_pacman_mouth_angle MOUTH_SPEED
  have e : (n : ℚ) + 10 - 10 = n := by ring
  simp only [Bool.false_eq_true, if_false, e, f32_ofNat_small n h]

theorem mouth_steps_four : mouth_steps 4 (false, 45) = (true, 5) := by
  have s1 : update_pacman_mouth_angle false 45 = (false, 35) := by
    have := mouth_close_step 35 (by norm_num); norm_num at this; exact this
  have s2 : update_pacman_mouth_angle false 35 = (false, 25) := by
    have := mouth_close_step 25 (by norm_num); norm_num at this; exact this
  have s3 : update_pacman_mouth_angle false 25 = (false, 15) := by
    have := mouth_close_step 15 (by norm_num); norm_num at this; exact this
  have s4 : update_pacman_mouth_angle false 15 = (true, 5) := by
    have := mouth_close_step 5 (by norm_num); norm_num at this; exact this
  simp only [mouth_steps, s1, s2, s3, s4]

/-! ## Facts about input, movement and wrap -/

theorem handle_keypress_cases (keystate : KeyState) (dir : Vec2) (angle : ℚ) :
    handle_keypress keystate dir angle =
      if keystate.W || keystate.UP then (⟨0, -1⟩, -90)
      else if keystate.S || keystate.DOWN then (⟨0, 1⟩, 90)
      else if keystate.A || keystate.LEFT then (⟨-1, 0⟩, 180)
      else if keystate.D || keystate.RIGHT then (⟨1, 0⟩, 0)
      else (dir, angle) := by
  unfold handle_keypress
  by_cases h1 : (keystate.W || keystate.UP) = true
  · simp [h1]
  · by_cases h2 : (keystate.S || keystate.DOWN) = true
    · simp [h1, h2]
    · by_cases h3 : (keystate.A || keystate.LEFT) = true
      · simp [h1, h2, h3]
      · by_cases h4 : (keystate.D || keystate.RIGHT) = true
        · simp [h1, h2, h3, h4]
        · simp [h1, h2, h3, h4]

theorem handle_keypress_no_keys (dir : Vec2) (angle : ℚ) :
    handle_keypress no_keys dir angle = (dir, angle) := by
  rw [handle_keypress_cases]; simp [no_keys]

theorem handle_keypress_only_right (dir : Vec2) (angle : ℚ) :
    handle_keypress only_right dir angle = (⟨1, 0⟩, 0) := by
  rw [handle_keypress_cases]; simp [only_right]

theorem handle_keypress_axis (keystate : KeyState) (dir : Vec2) (angle : ℚ)
    (h : axis_direction dir) : axis_direction (handle_keypress keystate dir angle).1 := by
  rw [handle_keypress_cases]
  unfold axis_direction
  split_ifs <;> simp
  exact h

theorem wrap_low : f32 (-PLAYER_RADIUS * 2) = -24 := by
  unfold PLAYER_RADIUS
  have := f32_int (-24) (by norm_num) (by norm_num)
  norm_num at this ⊢; exact this

theorem wrap_high : f32 (WINDOW_WIDTH + f32 (PLAYER_RADIUS * 2)) = 840 := by
  unfold PLAYER_RADIUS WINDOW_WIDTH
  have a := f32_ofNat_small 24 (by norm_num)
  have b := f32_ofNat_small 840 (by norm_num)
  norm_num at a b ⊢
  rw [a]; norm_num; exact b

theorem wrap_target : f32 (WINDOW_WIDTH + PLAYER_RADIUS) = 828 := by
  unfold PLAYER_RADIUS WINDOW_WIDTH
  have b := f32_ofNat_small 828 (by norm_num)
  norm_num at b ⊢; exact b

theorem screen_wrap_x (p : Vec2) :
    (screen_wrap p).x = if p.x < -24 then 828 else if p.x > 840 then -12 else p.x := by
  unfold screen_wrap
  simp only [wrap_low, wrap_high, wrap_target]
  unfold PLAYER_RADIUS
  rfl

theorem screen_wrap_y (p : Vec2) :
    (screen_wrap p).y = if p.y < -24 then 828 else if p.y > 840 then -12 else p.y := by
  unfold screen_wrap WINDOW_HEIGHT
  have h1 := wrap_low
  have h2 := wrap_high
  have h3 := wrap_target
  unfold WINDOW_WIDTH at h2 h3
  simp only [h1, h2, h3]
  unfold PLAYER_RADIUS
  rfl

theorem screen_wrap_band (p : Vec2) :
    in_wrap_band (screen_wrap p).x ∧ in_wrap_band (screen_wrap p).y := by
  rw [screen_wrap_x, screen_wrap_y]
  unfold in_wrap_band
  constructor
  · split_ifs with h1 h2
    · norm_num
    · norm_num
    · exact ⟨not_lt.mp h1, not_lt.mp h2⟩
  · split_ifs with h1 h2
    · norm_num
    · norm_num
    · exact ⟨not_lt.mp h1, not_lt.mp h2⟩

/-! ## Facts about `(int)` and `get_tile` -/

theorem float_to_int_of_nonneg (f : ℚ) (h : 0 ≤ f) : float_to_int f = ⌊f⌋ := by
  unfold float_to_int; rw [if_pos h]

theorem float_to_int_of_neg (f : ℚ) (h : f < 0) : float_to_int f = ⌈f⌉ := by
  unfold float_to_int; rw [if_neg (not_le.mpr h)]

theorem float_to_int_intCast (n : Int) : float_to_int (n : ℚ) = n := by
  unfold float_to_int
  split_ifs <;> simp

theorem float_to_int_neg (f : ℚ) : float_to_int (-f) = -float_to_int f := by
  rcases lt_trichotomy f 0 with h | h | h
  · rw [float_to_int_of_neg f h, float_to_int_of_nonneg (-f) (by linarith), Int.floor_neg]
  · subst h; simp [float_to_int]
  · rw [float_to_int_of_nonneg f h.le, float_to_int_of_neg (-f) (by linarith), Int.ceil_neg]

/-- The conversion is the truncation toward zero: the result has the sign of `f`
and its magnitude is the integer part of the magnitude of `f`. -/
theorem float_to_int_trunc (f : ℚ) :
    |((float_to_int f : ℤ) : ℚ)| ≤ |f| ∧ |f| < |((float_to_int f : ℤ) : ℚ)| + 1 ∧
      (0 ≤ f → 0 ≤ float_to_int f) ∧ (f ≤ 0 → float_to_int f ≤ 0) := by
  by_cases h : 0 ≤ f
  · rw [float_to_int_of_nonneg f h]
    have h0 : (0 : ℤ) ≤ ⌊f⌋ := Int.floor_nonneg.mpr h
    have h0q : (0 : ℚ) ≤ ((⌊f⌋ : ℤ) : ℚ) := by exact_mod_cast h0
    rw [abs_of_nonneg h0q, abs_of_nonneg h]
    refine ⟨Int.floor_le f, Int.lt_floor_add_one f, fun _ => h0, fun hf => ?_⟩
    have : f = 0 := le_antisymm hf h
    rw [this]; simp
  · have hneg : f < 0 := not_le.mp h
    rw [float_to_int_of_neg f hneg]
    have h0 : ⌈f⌉ ≤ (0 : ℤ) := Int.ceil_le.mpr (by exact_mod_cast hneg.le)
    have h0q : ((⌈f⌉ : ℤ) : ℚ) ≤ 0 := by exact_mod_cast h0
    rw [abs_of_nonpos h0q, abs_of_neg hneg]
    refine ⟨?_, ?_, fun hf => absurd hf h, fun _ => h0⟩
    · linarith [Int.le_ceil f]
    · linarith [Int.ceil_lt_add_one f]

theorem float_to_int_band (q : ℚ) (b1 : (-1 : ℚ) ≤ q) (b2 : q ≤ 35) :
    -1 ≤ float_to_int q ∧ float_to_int q ≤ 35 := by
  by_cases h0 : 0 ≤ q
  · rw [float_to_int_of_nonneg _ h0]
    constructor
    · have := Int.floor_nonneg.mpr h0; omega
    · have h3 : ((⌊q⌋ : ℤ) : ℚ) ≤ 35 := le_trans (Int.floor_le _) b2
      exact_mod_cast h3
  · have hneg : q < 0 := not_le.mp h0
    rw [float_to_int_of_neg _ hneg]
    constructor
    · have h3 : ((-1 : ℤ) : ℚ) ≤ ((⌈q⌉ : ℤ) : ℚ) := by
        push_cast; linarith [Int.le_ceil q]
      exact_mod_cast h3
    · have : ⌈q⌉ ≤ (0 : ℤ) := Int.ceil_le.mpr (by exact_mod_cast hneg.le)
      omega

theorem float_to_int_tile_band (c : ℚ) (h : in_wrap_band c) :
    -1 ≤ float_to_int (f32 (c / TILE_SIZE)) ∧ float_to_int (f32 (c / TILE_SIZE)) ≤ 35 := by
  obtain ⟨hl, hu⟩ := h
  unfold TILE_SIZE
  have b1 : (-1 : ℚ) ≤ c / 24 := by rw [le_div_iff₀ (by norm_num)]; linarith
  have b2 : c / 24 ≤ 35 := by rw [div_le_iff₀ (by norm_num)]; linarith
  have c1 : ((-1 : ℤ) : ℚ) ≤ f32 (c / 24) :=
    int_le_f32 (-1) (by norm_num) (by norm_num) (by push_cast; exact b1)
  have c2 : f32 (c / 24) ≤ ((35 : ℤ) : ℚ) :=
    f32_le_int 35 (by norm_num) (by norm_num) (by push_cast; exact b2)
  push_cast at c1 c2
  exact float_to_int_band _ c1 c2

/-! ## Facts about the frame loop -/

theorem frame_pos (k : KeyState) (s : GameState) :
    (frame k s).player_pos =
      screen_wrap (update_player_position s.player_pos
        (handle_keypress k s.player_direction s.desired_angle).1) := rfl

theorem frame_direction (k : KeyState) (s : GameState) :
    (frame k s).player_direction = (handle_keypress k s.player_direction s.desired_angle).1 :=
  rfl

theorem frame_angle (k : KeyState) (s : GameState) :
    (frame k s).desired_angle = (handle_keypress k s.player_direction s.desired_angle).2 :=
  rfl

theorem run_frames_band (keys : List KeyState) (s : GameState)
    (h : in_wrap_band s.player_pos.x ∧ in_wrap_band s.player_pos.y) :
    in_wrap_band (run_frames keys s).player_pos.x ∧
      in_wrap_band (run_frames keys s).player_pos.y := by
  induction keys generalizing s with
  | nil => exact h
  | cons k ks ih =>
    show in_wrap_band (run_frames ks (frame k s)).player_pos.x ∧
      in_wrap_band (run_frames ks (frame k s)).player_pos.y
    apply ih
    rw [frame_pos]
    exact screen_wrap_band _

theorem initial_state_pos : initial_state.player_pos = ⟨408, 408⟩ := by
  unfold initial_state WINDOW_WIDTH WINDOW_HEIGHT
  have := f32_ofNat_small 408 (by norm_num)
  norm_num at this ⊢
  exact this

theorem initial_state_band :
    in_wrap_band initial_state.player_pos.x ∧ in_wrap_band initial_state.player_pos.y := by
  rw [initial_state_pos]
  unfold in_wrap_band
  norm_num

/-- A step to the right from an integer abscissa below `2 ^ 24 - 4` is exact. -/
theorem update_right_x (p : Vec2) (n : ℕ) (hp : p.x = n) (hn : n + 4 < 16777216) :
    (update_player_position p ⟨1, 0⟩).x = (n : ℚ) + 4 := by
  unfold update_player_position
  simp only [SPEED_eq, mul_one, hp]
  have a := f32_ofNat_small 4 (by norm_num)
  have b := f32_ofNat_small (n + 4) hn
  norm_num at a
  push_cast at b
  rw [a, b]

theorem right_then_idle_zero : right_then_idle 0 = frame only_right initial_state := rfl

theorem right_then_idle_succ (N : Nat) :
    right_then_idle (N + 1) = frame no_keys (right_then_idle N) := by
  unfold right_then_idle run_frames
  rw [List.replicate_succ', List.foldl_append]
  rfl

theorem right_then_idle_heading (N : Nat) :
    (right_then_idle N).player_direction = ⟨1, 0⟩ ∧ (right_then_idle N).desired_angle = 0 := by
  induction N with
  | zero =>
    rw [right_then_idle_zero, frame_direction, frame_angle, handle_keypress_only_right]
    exact ⟨rfl, rfl⟩
  | succ N ih =>
    rw [right_then_idle_succ, frame_direction, frame_angle, handle_keypress_no_keys]
    exact ih

theorem right_then_idle_start_x : (right_then_idle 0).player_pos.x = 412 := by
  rw [right_then_idle_zero, frame_pos, handle_keypress_only_right, screen_wrap_x,
    update_right_x initial_state.player_pos 408 (by rw [initial_state_pos]; norm_num)
      (by norm_num)]
  norm_num

/-- One idle frame of the scenario from an integer abscissa: it advances by 4 and is
then wrapped. -/
theorem right_then_idle_step_x (N n : Nat) (hx : (right_then_idle N).player_pos.x = n)
    (hn : n + 4 < 16777216) :
    (right_then_idle (N + 1)).player_pos.x =
      if (n : ℚ) + 4 > 840 then -12 else (n : ℚ) + 4 := by
  rw [right_then_idle_succ, frame_pos, handle_keypress_no_keys, screen_wrap_x,
    (right_then_idle_heading N).1, update_right_x _ n hx hn]
  have h0 : (0 : ℚ) ≤ (n : ℚ) := Nat.cast_nonneg n
  rw [if_neg (by linarith)]

theorem right_then_idle_x (N : Nat) (h : N ≤ 107) :
    (right_then_idle N).player_pos.x = ((412 + 4 * N : ℕ) : ℚ) := by
  induction N with
  | zero => rw [right_then_idle_start_x]; norm_num
  | succ N ih =>
    have hN : (N : ℚ) ≤ 106 := by
      have : N ≤ 106 := by omega
      exact_mod_cast this
    rw [right_then_idle_step_x N (412 + 4 * N) (ih (by omega)) (by omega)]
    push_cast
    rw [if_neg (by linarith)]
    ring

/-! ## Facts about `angle_diff` -/

theorem f32_err_256 (x : ℚ) (h : |x| < 8589934592) : |f32 x - x| ≤ 256 := by
  by_cases h0 : x = 0
  · subst h0; rw [f32_zero]; norm_num
  have hq : fp_quantum 24 (-126) x ≤ 9 := by
    have := fp_quantum_le 24 (-126) (k := 32) h0 (by norm_num; exact h) (by norm_num)
    norm_num at this
    exact this
  have he := fp_round_err 24 (-126) x
  have hz : (2 : ℚ) ^ (fp_quantum 24 (-126) x - 1) ≤ 2 ^ (8 : ℤ) :=
    zpow_le_zpow_right₀ (by norm_num) (by omega)
  have : (2 : ℚ) ^ (8 : ℤ) = 256 := by norm_num
  unfold f32
  linarith

theorem wrap_up_succ (n : Nat) (d : ℚ) :
    wrap_up (n + 1) d = if d < -180 then wrap_up n (f32 (d + 360)) else some d := rfl

theorem wrap_down_succ (n : Nat) (d : ℚ) :
    wrap_down (n + 1) d = if d > 180 then wrap_down n (f32 (d - 360)) else some d := rfl

/-- The second loop is the mirror image of the first. -/
theorem wrap_down_neg (n : Nat) (d : ℚ) :
    wrap_down n (-d) = (wrap_up n d).map (fun u => -u) := by
  induction n generalizing d with
  | zero => rfl
  | succ n ih =>
    rw [wrap_up_succ, wrap_down_succ]
    by_cases h : d < -180
    · have h2 : -d > 180 := by linarith
      rw [if_pos h, if_pos h2]
      have e : -d - 360 = -(d + 360) := by ring
      rw [e, f32_neg, ih]
    · have h2 : ¬ (-d > 180) := by intro h3; apply h; linarith
      rw [if_neg h, if_neg h2]
      rfl

theorem wrap_up_neg (n : Nat) (d : ℚ) :
    wrap_up n (-d) = (wrap_down n d).map (fun u => -u) := by
  have := wrap_down_neg n (-d)
  rw [neg_neg] at this
  rw [this]
  cases wrap_up n (-d) <;> simp

/-- More fuel does not change a returned value. -/
theorem wrap_up_fuel (n : Nat) (d u : ℚ) (h : wrap_up n d = some u) (m : Nat) (hm : n ≤ m) :
    wrap_up m d = some u := by
  induction n generalizing d m with
  | zero => simp [wrap_up] at h
  | succ n ih =>
    obtain ⟨m', rfl⟩ : ∃ m', m = m' + 1 := ⟨m - 1, by omega⟩
    rw [wrap_up_succ] at h ⊢
    split_ifs at h ⊢ with hc
    · exact ih _ h m' (by omega)
    · exact h

theorem wrap_down_fuel (n : Nat) (d u : ℚ) (h : wrap_down n d = some u) (m : Nat)
    (hm : n ≤ m) : wrap_down m d = some u := by
  have e : d = -(-d) := by ring
  rw [e, wrap_down_neg] at h ⊢
  cases hw : wrap_up n (-d) with
  | none => rw [hw] at h; simp at h
  | some w =>
    rw [hw] at h
    rw [wrap_up_fuel n _ w hw m hm]
    exact h

/-- A value returned by the first loop is at least -180, and at most 180 unless
the loop body did not run. -/
theorem wrap_up_range (n : Nat) (d u : ℚ) (h : wrap_up n d = some u) :
    -180 ≤ u ∧ (u = d ∨ u ≤ 180) := by
  induction n generalizing d with
  | zero => simp [wrap_up] at h
  | succ n ih =>
    rw [wrap_up_succ] at h
    split_ifs at h with hc
    · obtain ⟨a, b⟩ := ih _ h
      refine ⟨a, Or.inr ?_⟩
      rcases b with b | b
      · rw [b]
        have : f32 (d + 360) ≤ ((180 : ℤ) : ℚ) :=
          f32_le_int 180 (by norm_num) (by norm_num) (by push_cast; linarith)
        push_cast at this
        exact this
      · exact b
    · simp only [Option.some.injEq] at h
      subst h
      exact ⟨not_lt.mp hc, Or.inl rfl⟩

theorem wrap_down_range (n : Nat) (d u : ℚ) (h : wrap_down n d = some u) :
    u ≤ 180 ∧ (u = d ∨ -180 ≤ u) := by
  have e : d = -(-d) := by ring
  rw [e, wrap_down_neg] at h
  cases hw : wrap_up n (-d) with
  | none => rw [hw] at h; simp at h
  | some w =>
    rw [hw] at h
    simp only [Option.map_some', Option.some.injEq] at h
    obtain ⟨a, b⟩ := wrap_up_range n _ w hw
    subst h
    refine ⟨by linarith, ?_⟩
    rcases b with b | b
    · left; rw [b]; ring
    · right; linarith

theorem wrap_up_returns_in (k : ℕ) (d : ℚ) (h : -8589934592 ≤ d)
    (hk : (-180 - d) / 104 ≤ k) : ∃ u, wrap_up (k + 1) d = some u := by
  induction k generalizing d with
  | zero =>
    refine ⟨d, ?_⟩
    rw [wrap_up_succ, if_neg]
    rw [div_le_iff₀ (by norm_num)] at hk
    push_cast at hk
    linarith
  | succ k ih =>
    by_cases hc : d < -180
    · have hx : |d + 360| < 8589934592 := by rw [abs_lt]; constructor <;> linarith
      have he := f32_err_256 (d + 360) hx
      rw [abs_le] at he
      obtain ⟨u, hu⟩ := ih (f32 (d + 360)) (by linarith) (by
        rw [div_le_iff₀ (by norm_num)] at hk ⊢
        push_cast at hk
        linarith)
      refine ⟨u, ?_⟩
      rw [wrap_up_succ, if_pos hc]
      exact hu
    · exact ⟨d, by rw [wrap_up_succ, if_neg hc]⟩

/-- The first loop returns for every `diff` from `-2 ^ 33` on, within a number of
tests that does not depend on `diff`. -/
theorem wrap_up_returns : ∃ N, ∀ d : ℚ, -8589934592 ≤ d → ∃ u, wrap_up N d = some u := by
  refine ⟨82595525 + 1, fun d h => ?_⟩
  apply wrap_up_returns_in 82595525 d h
  rw [div_le_iff₀ (by norm_num)]
  norm_num
  linarith

theorem wrap_down_returns : ∃ N, ∀ d : ℚ, d ≤ 8589934592 → ∃ w, wrap_down N d = some w := by
  obtain ⟨N, hN⟩ := wrap_up_returns
  refine ⟨N, fun d h => ?_⟩
  obtain ⟨u, hu⟩ := hN (-d) (by linarith)
  refine ⟨-u, ?_⟩
  have e : d = -(-d) := by ring
  rw [e, wrap_down_neg, hu]
  rfl

theorem angle_diff_eq (n : Nat) (a b : ℚ) :
    angle_diff n a b = ((wrap_up n (f32 (a - b))).bind (wrap_down n)).map (fun v => |v|) := by
  unfold angle_diff
  cases h1 : wrap_up n (f32 (a - b)) with
  | none => simp [h1]
  | some u =>
    cases h2 : wrap_down n u <;> simp [h1, h2]

theorem angle_diff_some_iff (n : Nat) (a b v : ℚ) :
    angle_diff n a b = some v ↔
      ∃ u w, wrap_up n (f32 (a - b)) = some u ∧ wrap_down n u = some w ∧ v = |w| := by
  rw [angle_diff_eq]
  constructor
  · intro h
    cases h1 : wrap_up n (f32 (a - b)) with
    | none => rw [h1] at h; simp at h
    | some u =>
      rw [h1] at h
      simp only [Option.some_bind] at h
      cases h2 : wrap_down n u with
      | none => rw [h2] at h; simp at h
      | some w =>
        rw [h2] at h
        simp only [Option.map_some', Option.some.injEq] at h
        exact ⟨u, w, rfl, h2, h.symm⟩
  · rintro ⟨u, w, h1, h2, h3⟩
    rw [h1]
    simp only [Option.some_bind, h2, Option.map_some', h3]

/-- More fuel does not change a returned value of `angle_diff`. -/
theorem angle_diff_fuel (n : Nat) (a b v : ℚ) (h : angle_diff n a b = some v) (m : Nat)
    (hm : n ≤ m) : angle_diff m a b = some v := by
  rw [angle_diff_some_iff] at h ⊢
  obtain ⟨u, w, h1, h2, h3⟩ := h
  exact ⟨u, w, wrap_up_fuel n _ u h1 m hm, wrap_down_fuel n _ w h2 m hm, h3⟩

/-- The value `angle_diff` returns does not depend on the fuel. -/
theorem angle_diff_unique (n m : Nat) (a b v w : ℚ) (h1 : angle_diff n a b = some v)
    (h2 : angle_diff m a b = some w) : v = w := by
  have a1 := angle_diff_fuel n a b v h1 (max n m) (le_max_left _ _)
  have a2 := angle_diff_fuel m a b w h2 (max n m) (le_max_right _ _)
  rw [a1] at a2
  exact Option.some.inj a2

theorem angle_diff_range (n : Nat) (a b v : ℚ) (h : angle_diff n a b = some v) :
    0 ≤ v ∧ v ≤ 180 := by
  rw [angle_diff_some_iff] at h
  obtain ⟨u, w, h1, h2, h3⟩ := h
  obtain ⟨a1, a2⟩ := wrap_up_range n _ u h1
  obtain ⟨b1, b2⟩ := wrap_down_range n _ w h2
  rw [h3]
  refine ⟨abs_nonneg _, abs_le.mpr ⟨?_, b1⟩⟩
  rcases b2 with b2 | b2
  · rw [b2]; exact a1
  · exact b2

/-- When the rounded difference lies in `[-180, 180]` neither loop body runs. -/
theorem angle_diff_of_mem (n : Nat) (a b : ℚ) (h1 : -180 ≤ f32 (a - b))
    (h2 : f32 (a - b) ≤ 180) : angle_diff (n + 1) a b = some |f32 (a - b)| := by
  rw [angle_diff_some_iff]
  refine ⟨f32 (a - b), f32 (a - b), ?_, ?_, rfl⟩
  · rw [wrap_up_succ, if_neg (not_lt.mpr h1)]
  · rw [wrap_down_succ, if_neg (not_lt.mpr h2)]

/-- The call returns for every rounded difference of magnitude up to `2 ^ 33`, within
a number of loop tests that does not depend on the arguments. -/
theorem angle_diff_returns_of_le :
    ∃ N, ∀ a b : ℚ, |f32 (a - b)| ≤ 8589934592 → ∃ v, angle_diff N a b = some v := by
  obtain ⟨N1, h1⟩ := wrap_up_returns
  obtain ⟨N2, h2⟩ := wrap_down_returns
  refine ⟨max N1 N2, fun a b h => ?_⟩
  rw [abs_le] at h
  obtain ⟨u, hu⟩ := h1 (f32 (a - b)) h.1
  obtain ⟨a1, a2⟩ := wrap_up_range N1 _ u hu
  have hub : u ≤ 8589934592 := by
    rcases a2 with a2 | a2
    · rw [a2]; exact h.2
    · linarith
  obtain ⟨w, hw⟩ := h2 u hub
  refine ⟨|w|, ?_⟩
  rw [angle_diff_some_iff]
  exact ⟨u, w, wrap_up_fuel N1 _ u hu _ (le_max_left _ _),
    wrap_down_fuel N2 _ w hw _ (le_max_right _ _), rfl⟩

theorem angle_diff_symm (n : Nat) (a b : ℚ) : angle_diff n b a = angle_diff n a b := by
  have e : b - a = -(a - b) := by ring
  cases n with
  | zero => simp [angle_diff, wrap_up]
  | succ n =>
    rw [angle_diff_eq, angle_diff_eq, e, f32_neg, wrap_up_neg]
    set d := f32 (a - b) with hd
    rcases lt_or_le d (-180) with h1 | h1
    · -- only the first loop runs on `d`, only the second on `-d`
      have hd2 : wrap_down (n + 1) d = some d := by
        rw [wrap_down_succ, if_neg (by linarith)]
      rw [hd2]
      simp only [Option.map_some', Option.some_bind, wrap_down_neg]
      cases hu : wrap_up (n + 1) d with
      | none => simp
      | some u =>
        obtain ⟨a1, a2⟩ := wrap_up_range _ _ u hu
        have hu180 : u ≤ 180 := by
          rcases a2 with a2 | a2
          · rw [a2]; linarith
          · exact a2
        simp only [Option.map_some', Option.some_bind]
        rw [wrap_down_succ, if_neg (by linarith)]
        simp
    · rcases le_or_lt d 180 with h2 | h2
      · have hd1 : wrap_up (n + 1) d = some d := by
          rw [wrap_up_succ, if_neg (by linarith)]
        have hd2 : wrap_down (n + 1) d = some d := by
          rw [wrap_down_succ, if_neg (by linarith)]
        rw [hd1, hd2]
        simp only [Option.map_some', Option.some_bind, wrap_down_neg, hd1, hd2, abs_neg]
      · have hd1 : wrap_up (n + 1) d = some d := by
          rw [wrap_up_succ, if_neg (by linarith)]
        rw [hd1]
        simp only [Option.some_bind]
        cases hw : wrap_down (n + 1) d with
        | none => simp
        | some w =>
          obtain ⟨b1, b2⟩ := wrap_down_range _ _ w hw
          have hw180 : -180 ≤ w := by
            rcases b2 with b2 | b2
            · rw [b2]; linarith
            · exact b2
          simp only [Option.map_some', Option.some_bind, wrap_down_neg]
          rw [wrap_up_succ, if_neg (by linarith)]
          simp

theorem angle_diff_self (n : Nat) (a : ℚ) : angle_diff (n + 1) a a = some 0 := by
  have h := angle_diff_of_mem n a a (by rw [sub_self, f32_zero]; norm_num)
    (by rw [sub_self, f32_zero]; norm_num)
  rw [h, sub_self, f32_zero]
  simp

/-! ## Where the loops of `angle_diff` are exact -/

/-- A `float` below -180 and above `-2 ^ 27` plus 360 is a `float`. -/
theorem f32_add_360_exact (d : ℚ) (hd : f32 d = d) (h1 : -134217728 < d) (h2 : d < -180) :
    f32 (d + 360) = d + 360 := by
  have habs : |d| = -d := abs_of_neg (by linarith)
  have hpos : 0 < |d| := by rw [habs]; linarith
  have he1 : (7 : ℤ) ≤ Int.log 2 |d| := by
    rw [← Int.zpow_le_iff_le_log (by norm_num) hpos]
    rw [habs]; norm_num; linarith
  have he2 : Int.log 2 |d| < 27 := by
    apply log_two_lt hpos
    rw [habs]; norm_num; linarith
  set e := Int.log 2 |d| with hedef
  have hQ : fp_quantum 24 (-126) d = e - 23 := by
    unfold fp_quantum
    rw [← hedef, max_eq_left (by omega)]
    norm_num
  set m := round_even (d / 2 ^ (e - 23)) with hm
  have hdm : d = (m : ℚ) * 2 ^ (e - 23) := by
    have := hd
    unfold f32 fp_round at this
    rw [hQ] at this
    rw [← hm] at this
    exact this.symm
  have hup : |d| < 2 ^ (e + 1) := lt_two_zpow_log |d|
  obtain ⟨j, hj⟩ : ∃ j : ℕ, (3 : ℤ) = (e - 23) + j := ⟨(3 - (e - 23)).toNat, by omega⟩
  have h8 : (2 : ℚ) ^ (j : ℤ) * 2 ^ (e - 23) = 8 := by
    rw [← zpow_add₀ (by norm_num), add_comm, ← hj]; norm_num
  have hp := two_zpow_pos (e - 23)
  have hsum : d + 360 = ((m + 45 * 2 ^ j : ℤ) : ℚ) * 2 ^ (e - 23) := by
    push_cast
    rw [add_mul, ← hdm, mul_assoc, ← zpow_natCast, h8]
    norm_num
  have h24 : (2 : ℚ) ^ (e + 1) = 16777216 * 2 ^ (e - 23) := by
    have : e + 1 = 24 + (e - 23) := by ring
    rw [this, zpow_add₀ (by norm_num)]
    norm_num
  have hlt : |d + 360| < 16777216 * 2 ^ (e - 23) := by
    rw [← h24]
    refine lt_of_le_of_lt ?_ hup
    rw [habs, abs_le]
    constructor <;> linarith
  rw [hsum] at hlt ⊢
  rw [abs_mul, abs_of_pos hp] at hlt
  have hm' : |((m + 45 * 2 ^ j : ℤ) : ℚ)| < 16777216 := lt_of_mul_lt_mul_right hlt hp.le
  rw [abs_lt] at hm'
  apply f32_exact
  · have := hm'.1; exact_mod_cast this
  · have := hm'.2; exact_mod_cast this
  · omega

/-- On a `float` of magnitude below `2 ^ 27` the first loop adds exact multiples of
360. -/
theorem wrap_up_exact (n : Nat) (d u : ℚ) (hd : f32 d = d) (hb : -134217728 < d)
    (h : wrap_up n d = some u) : f32 u = u ∧ d ≤ u ∧ ∃ k : ℤ, u = d + 360 * k := by
  induction n generalizing d with
  | zero => simp [wrap_up] at h
  | succ n ih =>
    rw [wrap_up_succ] at h
    split_ifs at h with hc
    · have hx := f32_add_360_exact d hd hb hc
      rw [hx] at h
      obtain ⟨a, b, k, hk⟩ := ih (d + 360) (by rw [hx]) (by linarith) h
      exact ⟨a, by linarith, k + 1, by rw [hk]; push_cast; ring⟩
    · simp only [Option.some.injEq] at h
      subst h
      exact ⟨hd, le_refl _, 0, by simp⟩

theorem wrap_down_exact (n : Nat) (d w : ℚ) (hd : f32 d = d) (hb : d < 134217728)
    (h : wrap_down n d = some w) : f32 w = w ∧ w ≤ d ∧ ∃ k : ℤ, w = d + 360 * k := by
  have e : d = -(-d) := by ring
  rw [e, wrap_down_neg] at h
  cases hu : wrap_up n (-d) with
  | none => rw [hu] at h; simp at h
  | some u =>
    rw [hu] at h
    simp only [Option.map_some', Option.some.injEq] at h
    obtain ⟨a, b, k, hk⟩ := wrap_up_exact n (-d) u (by rw [f32_neg, hd]) (by linarith) hu
    subst h
    refine ⟨by rw [f32_neg, a], by linarith, -k, ?_⟩
    rw [hk]; push_cast; ring

/-- Two values of `[-180, 180]` that differ by a multiple of 360 have the same
absolute value. -/
theorem abs_eq_of_congr (x y : ℚ) (k : ℤ) (hx : -180 ≤ x ∧ x ≤ 180)
    (hy : -180 ≤ y ∧ y ≤ 180) (h : x = y + 360 * k) : |x| = |y| := by
  have h1 : (k : ℚ) < 2 := by nlinarith [hx.1, hx.2, hy.1, hy.2]
  have h2 : (-2 : ℚ) < k := by nlinarith [hx.1, hx.2, hy.1, hy.2]
  have h1i : k < 2 := by exact_mod_cast h1
  have h2i : -2 < k := by exact_mod_cast h2
  have hk : k = -1 ∨ k = 0 ∨ k = 1 := by omega
  rcases hk with hk | hk | hk
  · subst hk
    have ex : x = -180 := by push_cast at h; linarith [hx.1, hy.2]
    have ey : y = 180 := by push_cast at h; linarith [hx.1, hy.2]
    rw [ex, ey]; norm_num
  · subst hk
    have : x = y := by push_cast at h; linarith
    rw [this]
  · subst hk
    have ex : x = 180 := by push_cast at h; linarith [hx.2, hy.1]
    have ey : y = -180 := by push_cast at h; linarith [hx.2, hy.1]
    rw [ex, ey]; norm_num

/-- On a difference that is a `float` of magnitude below `2 ^ 27`, `angle_diff`
returns the distance of the difference to the nearest multiple of 360. -/
theorem angle_diff_exact (n : Nat) (a b v : ℚ) (hd : f32 (a - b) = a - b)
    (hb : |a - b| < 134217728) (h : angle_diff n a b = some v) :
    ∃ (w : ℚ) (k : ℤ), v = |w| ∧ -180 ≤ w ∧ w ≤ 180 ∧ w = (a - b) + 360 * k := by
  rw [angle_diff_some_iff] at h
  obtain ⟨u, w, h1, h2, h3⟩ := h
  rw [hd] at h1
  rw [abs_lt] at hb
  obtain ⟨a1, a2⟩ := wrap_up_range n _ u h1
  obtain ⟨e1, e2, k, hk⟩ := wrap_up_exact n _ u hd hb.1 h1
  have hu : u < 134217728 := by
    rcases a2 with a2 | a2
    · rw [a2]; exact hb.2
    · linarith
  obtain ⟨b1, b2⟩ := wrap_down_range n _ w h2
  obtain ⟨f1, f2, j, hj⟩ := wrap_down_exact n u w e1 hu h2
  refine ⟨w, k + j, h3, ?_, b1, ?_⟩
  · rcases b2 with b2 | b2
    · rw [b2]; exact a1
    · exact b2
  · rw [hj, hk]; push_cast; ring

/-! ## Concrete roundings -/

theorem f32_1e10 : f32 10000000000 = 10000000000 := by
  have := f32_exact 9765625 10 (by norm_num) (by norm_num) (by norm_num)
  norm_num at this
  exact this

/-- At `10 ^ 10` a step of 360 is less than half a unit in the last place (1024). -/
theorem f32_1e10_sub_360 : f32 (10000000000 - 360) = 10000000000 := by
  have := f32_eval (10000000000 - 360) 33 9765625 (by norm_num [abs_of_pos])
    (by norm_num [abs_of_pos]) (by norm_num) (by norm_num [abs_lt])
  rw [this]; norm_num

theorem wrap_down_1e10 (n : Nat) : wrap_down n 10000000000 = none := by
  induction n with
  | zero => rfl
  | succ n ih =>
    rw [wrap_down_succ, if_pos (by norm_num), f32_1e10_sub_360]
    exact ih

theorem wrap_up_neg_1e10 (n : Nat) : wrap_up n (-10000000000) = none := by
  rw [wrap_up_neg, wrap_down_1e10]; rfl

theorem angle_diff_1e10 (n : Nat) : angle_diff n 10000000000 0 = none := by
  rw [angle_diff_eq, sub_zero, f32_1e10]
  cases n with
  | zero => rfl
  | succ n =>
    rw [wrap_up_succ, if_neg (by norm_num)]
    simp only [Option.some_bind, wrap_down_1e10, Option.map_none']

/-- The `float` nearest to 0.1. -/
theorem f32_tenth : f32 (1 / 10) = 13421773 / 134217728 := by
  have := f32_eval (1 / 10) (-4) 13421773 (by norm_num [abs_of_pos])
    (by norm_num [abs_of_pos]) (by norm_num) (by norm_num [abs_lt])
  rw [this]; norm_num

theorem f32_half_sub_tenth :
    f32 (1 / 2 - 13421773 / 134217728) = 13421773 / 33554432 := by
  have := f32_eval (1 / 2 - 13421773 / 134217728) (-2) 13421773 (by norm_num [abs_of_pos])
    (by norm_num [abs_of_pos]) (by norm_num) (by norm_num [abs_lt])
  rw [this]; norm_num

theorem f32_half_add_360 : f32 (1 / 2 + 360) = 721 / 2 := by
  have := f32_exact 721 (-1) (by norm_num) (by norm_num) (by norm_num)
  norm_num at this ⊢
  exact this

theorem f32_360_half_sub_tenth :
    f32 (721 / 2 - 13421773 / 134217728) = 11809587 / 32768 := by
  have := f32_eval (721 / 2 - 13421773 / 134217728) 8 11809587 (by norm_num [abs_of_pos])
    (by norm_num [abs_of_pos]) (by norm_num) (by norm_num [abs_lt])
  rw [this]; norm_num

theorem f32_sub_360_back : f32 (11809587 / 32768 - 360) = 13107 / 32768 := by
  have := f32_exact 13107 (-15) (by norm_num) (by norm_num) (by norm_num)
  norm_num at this ⊢
  exact this

theorem f32_4e8 : f32 400000000 = 400000000 := by
  have := f32_exact 390625 10 (by norm_num) (by norm_num) (by norm_num)
  norm_num at this
  exact this

theorem f32_4e8_div_24 : f32 (400000000 / 24) = 16666667 := by
  have := f32_eval (400000000 / 24) 23 16666667 (by norm_num [abs_of_pos])
    (by norm_num [abs_of_pos]) (by norm_num) (by norm_num [abs_lt])
  rw [this]; norm_num

/-! ## Where the tile is the truncated quotient -/

/-- When `x` lies `24 / 2 ^ s` or more below the next multiple of 24, the `float`
quotient does not reach the next integer. -/
theorem tile_of_bounds (x : ℚ) (k s : ℕ) (h1 : (24 : ℚ) * k ≤ x)
    (h2 : x ≤ 24 * ((k : ℚ) + 1 - 1 / 2 ^ s)) (hk : (k + 1) * 2 ^ s ≤ 16777216)
    (hs : s ≤ 149) : float_to_int (f32 (x / 24)) = k := by
  have hp : (0 : ℚ) < 2 ^ s := by positivity
  have lo : ((k : ℤ) : ℚ) ≤ f32 (x / 24) := by
    apply int_le_f32 k (by omega)
    · have : k < (k + 1) * 2 ^ s := by
        have : 1 ≤ 2 ^ s := Nat.one_le_two_pow
        nlinarith
      omega
    · push_cast; rw [le_div_iff₀ (by norm_num)]; linarith
  have e : (((k + 1) * 2 ^ s - 1 : ℤ) : ℚ) * 2 ^ (-(s : ℤ)) = (k : ℚ) + 1 - 1 / 2 ^ s := by
    rw [zpow_neg, zpow_natCast]
    push_cast
    field_simp
  have hi : f32 (x / 24) ≤ (k : ℚ) + 1 - 1 / 2 ^ s := by
    have ex := f32_exact ((k + 1) * 2 ^ s - 1) (-(s : ℤ))
      (by have : (0 : ℤ) ≤ (k + 1) * 2 ^ s := by positivity
          omega)
      (by have : ((k + 1) * 2 ^ s : ℤ) ≤ 16777216 := by exact_mod_cast hk
          omega)
      (by omega)
    rw [e] at ex
    rw [← ex]
    apply f32_mono
    rw [div_le_iff₀ (by norm_num)]
    linarith
  have h0 : 0 ≤ f32 (x / 24) := le_trans (by exact_mod_cast Nat.cast_nonneg k) lo
  rw [float_to_int_of_nonneg _ h0, Int.floor_eq_iff]
  refine ⟨lo, ?_⟩
  have : (0 : ℚ) < 1 / 2 ^ s := by positivity
  push_cast
  linarith

/-- A `float` quotient by 24 does not reach an integer that the exact quotient stays
below: the `float`s below `24 * N` are at least 16 units in the last place of `N`
away from it. -/
theorem f32_div24_lt (x : ℚ) (N : ℕ) (hx : f32 x = x) (h0 : 0 ≤ x) (hN1 : 1 ≤ N)
    (hN2 : N ≤ 4194304) (hlt : x < 24 * N) : f32 (x / 24) < N := by
  -- the binade of `N`: `2 ^ g / 2 < N ≤ 2 ^ g`
  set g := Nat.clog 2 N with hg
  have hNle : N ≤ 2 ^ g := Nat.le_pow_clog (by norm_num) N
  have hg22 : g ≤ 22 := by
    have : Nat.clog 2 N ≤ Nat.clog 2 4194304 := Nat.clog_mono_right 2 hN2
    have e : Nat.clog 2 4194304 = 22 := by
      have := Nat.clog_pow 2 22 (by norm_num)
      norm_num at this
      exact this
    omega
  have hNgt : 2 ^ g < 2 * N := by
    rcases Nat.lt_or_ge 1 N with h | h
    · have := Nat.pow_pred_clog_lt_self (b := 2) (by norm_num) h
      rw [← hg] at this
      have hgpos : 0 < g := Nat.clog_pos (by norm_num) h
      have e : 2 ^ g = 2 * 2 ^ g.pred := by
        obtain ⟨j, hj⟩ : ∃ j, g = j + 1 := ⟨g - 1, by omega⟩
        rw [hj, Nat.pred_succ, pow_succ]; ring
      omega
    · have h1 : N = 1 := by omega
      have : g = 0 := by rw [hg, h1]; simp
      rw [this, h1]; norm_num
  -- in units of `u`, the unit in the last place below `N`
  obtain ⟨j, hj⟩ : ∃ j : ℕ, j + g = 24 := ⟨24 - g, by omega⟩
  set u : ℚ := 2 ^ ((g : ℤ) - 24) with hu
  have hupos : 0 < u := two_zpow_pos _
  have huj : u * 2 ^ j = 1 := by
    rw [hu, ← zpow_natCast, ← zpow_add₀ (by norm_num)]
    have : (g : ℤ) - 24 + (j : ℤ) = 0 := by omega
    rw [this]; norm_num
  have hNu : (N : ℚ) = ((N * 2 ^ j : ℕ) : ℚ) * u := by
    push_cast; rw [mul_assoc, mul_comm _ u, huj, mul_one]
  have h2g : ((2 ^ g : ℕ) : ℚ) = 16777216 * u := by
    have : (16777216 : ℚ) = 2 ^ g * 2 ^ j := by
      rw [← pow_add, add_comm, hj]; norm_num
    push_cast
    rw [this, mul_assoc, mul_comm _ u, huj, mul_one]
  have hA : 8388608 + 1 ≤ N * 2 ^ j := by
    have : 2 ^ g * 2 ^ j < 2 * N * 2 ^ j :=
      Nat.mul_lt_mul_of_pos_right hNgt (by positivity)
    have e : 2 ^ g * 2 ^ j = 16777216 := by rw [← pow_add, add_comm, hj]; norm_num
    have e2 : 2 * N * 2 ^ j = 2 * (N * 2 ^ j) := by ring
    omega
  have hB : N * 2 ^ j ≤ 16777216 := by
    have : N * 2 ^ j ≤ 2 ^ g * 2 ^ j := Nat.mul_le_mul_right _ hNle
    have e : 2 ^ g * 2 ^ j = 16777216 := by rw [← pow_add, add_comm, hj]; norm_num
    omega
  have hAq : (8388608 + 1 : ℚ) ≤ ((N * 2 ^ j : ℕ) : ℚ) := by exact_mod_cast hA
  have hBq : ((N * 2 ^ j : ℕ) : ℚ) ≤ 16777216 := by exact_mod_cast hB
  set M : ℚ := ((N * 2 ^ j : ℕ) : ℚ) with hM
  -- `t = N - (2/3) u` rounds down to `N - u`
  have hpow1 : (2 : ℚ) ^ ((g : ℤ) - 1) = 8388608 * u := by
    rw [hu]
    have : (g : ℤ) - 1 = 23 + ((g : ℤ) - 24) := by ring
    rw [this, zpow_add₀ (by norm_num)]; norm_num
  have hpow2 : (2 : ℚ) ^ ((g : ℤ) - 1 + 1) = 16777216 * u := by
    rw [hu]
    have : (g : ℤ) - 1 + 1 = 24 + ((g : ℤ) - 24) := by ring
    rw [this, zpow_add₀ (by norm_num)]; norm_num
  have htpos : 0 < (N : ℚ) - 2 / 3 * u := by rw [hNu]; nlinarith
  have ht : f32 ((N : ℚ) - 2 / 3 * u) = (N : ℚ) - u := by
    have := f32_eval ((N : ℚ) - 2 / 3 * u) ((g : ℤ) - 1) ((N * 2 ^ j : ℕ) - 1 : ℤ)
      (by rw [abs_of_pos htpos, hpow1, hNu]; nlinarith)
      (by rw [abs_of_pos htpos, hpow2, hNu]; nlinarith)
      (by omega)
      (by
        have e : (g : ℤ) - 1 - 23 = (g : ℤ) - 24 := by ring
        rw [e, ← hu, hNu]
        have : ((N * 2 ^ j : ℕ) : ℚ) * u - 2 / 3 * u = (M - 2 / 3) * u := by ring
        rw [this, mul_div_assoc, div_self hupos.ne', mul_one]
        push_cast
        rw [show M - 2 / 3 - ((N : ℚ) * 2 ^ j - 1) = 1 / 3 by rw [hM]; push_cast; ring]
        rw [abs_of_pos (by norm_num)]; norm_num)
    rw [this]
    have e : (g : ℤ) - 1 - 23 = (g : ℤ) - 24 := by ring
    rw [e, ← hu]
    push_cast
    have hNu2 : (N : ℚ) * 2 ^ j * u = N := by rw [mul_assoc, mul_comm _ u, huj, mul_one]
    rw [sub_mul, hNu2, one_mul]
  -- `x` is at least `16 u` below `24 N`
  have hC : x ≤ 24 * N - 16 * u := by
    by_contra hcon
    rw [not_le] at hcon
    have hxbig : (2 : ℚ) ^ ((g : ℤ) + 3) ≤ x := by
      have e : (2 : ℚ) ^ ((g : ℤ) + 3) = 134217728 * u := by
        rw [hu]
        have : (g : ℤ) + 3 = 27 + ((g : ℤ) - 24) := by ring
        rw [this, zpow_add₀ (by norm_num)]; norm_num
      rw [e]
      rw [hNu] at hcon
      nlinarith
    have hxpos : 0 < x := lt_of_lt_of_le (two_zpow_pos _) hxbig
    have hxabs : |x| = x := abs_of_pos hxpos
    have he1 : (g : ℤ) + 3 ≤ Int.log 2 |x| := by
      rw [hxabs, ← Int.zpow_le_iff_le_log (by norm_num) hxpos]
      simpa using hxbig
    have hxsmall : x < 2 ^ ((g : ℤ) + 5) := by
      have e : (2 : ℚ) ^ ((g : ℤ) + 5) = 536870912 * u := by
        rw [hu]
        have : (g : ℤ) + 5 = 29 + ((g : ℤ) - 24) := by ring
        rw [this, zpow_add₀ (by norm_num)]; norm_num
      rw [e]
      rw [hNu] at hlt
      nlinarith
    have he2 : Int.log 2 |x| < (g : ℤ) + 5 := by
      rw [hxabs]; exact log_two_lt hxpos hxsmall
    set e := Int.log 2 |x| with hedef
    have hQ : fp_quantum 24 (-126) x = e - 23 := by
      unfold fp_quantum
      rw [← hedef, max_eq_left (by omega)]
      norm_num
    set m := round_even (x / 2 ^ (e - 23)) with hm
    have hxm : x = (m : ℚ) * 2 ^ (e - 23) := by
      have := hx
      unfold f32 fp_round at this
      rw [hQ, ← hm] at this
      exact this.symm
    obtain ⟨i, hi⟩ : ∃ i : ℕ, (3 : ℤ) = (e - 23) + i := ⟨(3 - (e - 23)).toNat, by omega⟩
    have hp := two_zpow_pos (e - 23)
    have h8 : (2 : ℚ) ^ (i : ℤ) * 2 ^ (e - 23) = 8 := by
      rw [← zpow_add₀ (by norm_num), add_comm, ← hi]; norm_num
    have h24 : (24 : ℚ) * N = ((3 * N * 2 ^ i : ℤ) : ℚ) * 2 ^ (e - 23) := by
      push_cast
      rw [mul_assoc, ← zpow_natCast, h8]; ring
    have hdiff : (0 : ℚ) < ((3 * N * 2 ^ i - m : ℤ) : ℚ) * 2 ^ (e - 23) := by
      push_cast
      rw [sub_mul]
      have := h24
      push_cast at this
      rw [← this, ← hxm]
      linarith
    have hint : (1 : ℤ) ≤ 3 * N * 2 ^ i - m := by
      have : (0 : ℚ) < ((3 * N * 2 ^ i - m : ℤ) : ℚ) := pos_of_mul_pos_left hdiff hp.le
      have : (0 : ℤ) < 3 * N * 2 ^ i - m := by exact_mod_cast this
      omega
    have hgap : (2 : ℚ) ^ (e - 23) ≤ 24 * N - x := by
      have h1q : (1 : ℚ) ≤ ((3 * N * 2 ^ i - m : ℤ) : ℚ) := by exact_mod_cast hint
      have := mul_le_mul_of_nonneg_right h1q hp.le
      rw [one_mul] at this
      refine le_trans this (le_of_eq ?_)
      push_cast
      rw [sub_mul]
      have h24' := h24
      push_cast at h24'
      rw [← h24', ← hxm]
    have h16 : 16 * u ≤ (2 : ℚ) ^ (e - 23) := by
      have e16 : 16 * u = (2 : ℚ) ^ ((g : ℤ) - 20) := by
        rw [hu]
        have : (g : ℤ) - 20 = 4 + ((g : ℤ) - 24) := by ring
        rw [this, zpow_add₀ (by norm_num)]; norm_num
      rw [e16]
      exact zpow_le_zpow_right₀ (by norm_num) (by omega)
    linarith
  have hfin : f32 (x / 24) ≤ (N : ℚ) - u := by
    rw [← ht]
    apply f32_mono
    rw [div_le_iff₀ (by norm_num)]
    linarith
  linarith

/-- The tile of a non-negative `float` coordinate up to `2 ^ 26` is the floor of the
exact quotient. -/
theorem tile_of_nonneg (x : ℚ) (hx : f32 x = x) (h0 : 0 ≤ x) (h1 : x ≤ 67108864) :
    float_to_int (f32 (x / 24)) = ⌊x / 24⌋ := by
  have hq0 : 0 ≤ x / 24 := div_nonneg h0 (by norm_num)
  have hfl0 : 0 ≤ ⌊x / 24⌋ := Int.floor_nonneg.mpr hq0
  obtain ⟨k, hk⟩ := Int.eq_ofNat_of_zero_le hfl0
  have hle : ((k : ℕ) : ℚ) ≤ x / 24 := by
    have := Int.floor_le (x / 24)
    rw [hk] at this
    exact_mod_cast this
  have hlt : x / 24 < ((k : ℕ) : ℚ) + 1 := by
    have := Int.lt_floor_add_one (x / 24)
    rw [hk] at this
    exact_mod_cast this
  have hkb : k ≤ 2796202 := by
    have : ((k : ℕ) : ℚ) ≤ 67108864 / 24 := le_trans hle (by
      apply div_le_div_of_nonneg_right h1 (by norm_num))
    have h2 : ((k : ℕ) : ℚ) < 2796203 := by
      refine lt_of_le_of_lt this ?_
      norm_num
    have : k < 2796203 := by exact_mod_cast h2
    omega
  have hup := f32_div24_lt x (k + 1) hx h0 (by omega) (by omega) (by
    rw [div_lt_iff₀ (by norm_num)] at hlt
    push_cast
    linarith)
  have hlo : ((k : ℤ) : ℚ) ≤ f32 (x / 24) :=
    int_le_f32 k (by omega) (by omega) (by exact_mod_cast hle)
  have h0' : 0 ≤ f32 (x / 24) := le_trans (by exact_mod_cast Nat.cast_nonneg k) hlo
  rw [float_to_int_of_nonneg _ h0', hk, Int.floor_eq_iff]
  refine ⟨hlo, ?_⟩
  push_cast at hup ⊢
  exact hup

/-- The tile of a `float` coordinate of magnitude up to `2 ^ 26` is the exact quotient
by 24 truncated toward zero. -/
theorem tile_eq_trunc (x : ℚ) (hx : f32 x = x) (h1 : -67108864 ≤ x) (h2 : x ≤ 67108864) :
    float_to_int (f32 (x / 24)) = float_to_int (x / 24) := by
  by_cases h : 0 ≤ x
  · rw [tile_of_nonneg x hx h h2, float_to_int_of_nonneg _ (div_nonneg h (by norm_num))]
  · have hneg : x < 0 := not_le.mp h
    have e : x / 24 = -(-x / 24) := by ring
    have hx' : f32 (-x) = -x := by rw [f32_neg, hx]
    rw [e, f32_neg, float_to_int_neg, float_to_int_neg,
      tile_of_nonneg (-x) hx' (by linarith) (by linarith),
      float_to_int_of_nonneg _ (div_nonneg (by linarith) (by norm_num))]

/-! ## Facts about the rasteriser -/

theorem for_each_none {α : Type} (l : List Nat) (body : Nat → Option (List α)) (i : Nat)
    (hi : i ∈ l) (h : body i = none) : for_each l body = none := by
  induction l with
  | nil => simp at hi
  | cons j l ih =>
    rcases List.mem_cons.mp hi with rfl | hi'
    · simp [for_each, h]
    · simp only [for_each]
      cases body j with
      | none => rfl
      | some xs => simp [ih hi']

theorem for_each_returns {α : Type} (l : List Nat) (body : Nat → Option (List α))
    (h : ∀ i ∈ l, ∃ xs, body i = some xs) : ∃ L, for_each l body = some L := by
  induction l with
  | nil => exact ⟨[], rfl⟩
  | cons j l ih =>
    obtain ⟨xs, hxs⟩ := h j (List.mem_cons_self _ _)
    obtain ⟨ys, hys⟩ := ih (fun i hi => h i (List.mem_cons_of_mem _ hi))
    exact ⟨xs ++ ys, by simp [for_each, hxs, hys]⟩

theorem for_each_some {α : Type} (l : List Nat) (body : Nat → Option (List α)) (L : List α)
    (h : for_each l body = some L) :
    (∀ i ∈ l, ∃ xs, body i = some xs) ∧
      ∀ p, p ∈ L ↔ ∃ i ∈ l, ∃ xs, body i = some xs ∧ p ∈ xs := by
  induction l generalizing L with
  | nil =>
    simp only [for_each, Option.some.injEq] at h
    subst h
    simp
  | cons j l ih =>
    simp only [for_each] at h
    cases hb : body j with
    | none => rw [hb] at h; simp at h
    | some xs =>
      rw [hb] at h
      cases hr : for_each l body with
      | none => rw [hr] at h; simp at h
      | some ys =>
        rw [hr] at h
        simp only [Option.some.injEq] at h
        subst h
        obtain ⟨a, b⟩ := ih ys hr
        constructor
        · intro i hi
          rcases List.mem_cons.mp hi with rfl | hi'
          · exact ⟨xs, hb⟩
          · exact a i hi'
        · intro p
          rw [List.mem_append, b]
          constructor
          · rintro (hp | ⟨i, hi, zs, hz, hp⟩)
            · exact ⟨j, List.mem_cons_self _ _, xs, hb, hp⟩
            · exact ⟨i, List.mem_cons_of_mem _ hi, zs, hz, hp⟩
          · rintro ⟨i, hi, zs, hz, hp⟩
            rcases List.mem_cons.mp hi with rfl | hi'
            · rw [hb] at hz
              simp only [Option.some.injEq] at hz
              subst hz
              exact Or.inl hp
            · exact Or.inr ⟨i, hi', zs, hz, hp⟩

/-- The points of a returned call of `draw_circle`. -/
theorem mem_draw_circle (atan2f : ℚ → ℚ → ℚ) (M_PI : ℚ) (fuel : Nat) (center : Vec2)
    (radius mouth_angle : ℚ) (dir : Vec2) (desired_angle : ℚ) (L : List (Int × Int))
    (h : draw_circle atan2f M_PI fuel center radius mouth_angle dir desired_angle = some L)
    (px py : Int) :
    (px, py) ∈ L ↔
      ∃ dx dy : Int,
        -float_to_int radius ≤ dx ∧ dx < float_to_int radius ∧
        -float_to_int radius ≤ dy ∧ dy < float_to_int radius ∧
        dx * dx + dy * dy ≤ float_to_int radius * float_to_int radius ∧
        (∃ δ, angle_diff fuel (pixel_angle atan2f M_PI dx dy) desired_angle = some δ ∧
          δ > f32 (mouth_angle / 2)) ∧
        px = float_to_int center.x + dx ∧ py = float_to_int center.y + dy := by
  unfold draw_circle at h
  simp only at h
  obtain ⟨hall, hmem⟩ := for_each_some _ _ _ h
  rw [hmem]
  constructor
  · rintro ⟨w, hw, xs, hxs, hp⟩
    obtain ⟨_, hmem2⟩ := for_each_some _ _ _ hxs
    rw [hmem2] at hp
    obtain ⟨i, hi, ys, hys, hpy⟩ := hp
    rw [List.mem_range] at hw hi
    cases had : angle_diff fuel
        (pixel_angle atan2f M_PI ((w : Int) - float_to_int radius)
          ((i : Int) - float_to_int radius)) desired_angle with
    | none => rw [had] at hys; simp at hys
    | some δ =>
      rw [had] at hys
      simp only at hys
      split_ifs at hys with hc
      · simp only [Option.some.injEq] at hys
        subst hys
        simp only [List.mem_singleton, Prod.mk.injEq] at hpy
        exact ⟨(w : Int) - float_to_int radius, (i : Int) - float_to_int radius,
          by omega, by omega, by omega, by omega, hc.1, ⟨δ, had, hc.2⟩, hpy.1, hpy.2⟩
      · simp only [Option.some.injEq] at hys
        subst hys
        simp at hpy
  · rintro ⟨dx, dy, h1, h2, h3, h4, h5, ⟨δ, hδ, hgt⟩, h7, h8⟩
    have hw : (dx + float_to_int radius).toNat ∈ List.range (float_to_int radius * 2).toNat := by
      rw [List.mem_range]; omega
    have hi : (dy + float_to_int radius).toNat ∈ List.range (float_to_int radius * 2).toNat := by
      rw [List.mem_range]; omega
    have e1 : (((dx + float_to_int radius).toNat : ℕ) : Int) - float_to_int radius = dx := by
      omega
    have e2 : (((dy + float_to_int radius).toNat : ℕ) : Int) - float_to_int radius = dy := by
      omega
    obtain ⟨xs, hxs⟩ := hall _ hw
    refine ⟨_, hw, xs, hxs, ?_⟩
    obtain ⟨_, hmem2⟩ := for_each_some _ _ _ hxs
    rw [hmem2]
    refine ⟨_, hi, [(px, py)], ?_, List.mem_singleton_self _⟩
    simp only [e1, e2, hδ]
    rw [if_pos ⟨h5, hgt⟩, h7, h8]

/-- The call returns when `angle_diff` returns at every offset. -/
theorem draw_circle_returns_of (atan2f : ℚ → ℚ → ℚ) (M_PI : ℚ) (fuel : Nat) (center : Vec2)
    (radius mouth_angle : ℚ) (dir : Vec2) (desired_angle : ℚ)
    (h : ∀ dx dy : Int,
      ∃ δ, angle_diff fuel (pixel_angle atan2f M_PI dx dy) desired_angle = some δ) :
    ∃ L, draw_circle atan2f M_PI fuel center radius mouth_angle dir desired_angle = some L := by
  unfold draw_circle
  simp only
  apply for_each_returns
  intro w _
  apply for_each_returns
  intro i _
  obtain ⟨δ, hδ⟩ := h ((w : Int) - float_to_int radius) ((i : Int) - float_to_int radius)
  rw [hδ]
  simp only
  split_ifs
  · exact ⟨_, rfl⟩
  · exact ⟨_, rfl⟩

/-- The call does not return when `angle_diff` does not return at the first offset. -/
theorem draw_circle_none (atan2f : ℚ → ℚ → ℚ) (M_PI : ℚ) (fuel : Nat) (center : Vec2)
    (radius mouth_angle : ℚ) (dir : Vec2) (desired_angle : ℚ) (hr : 1 ≤ float_to_int radius)
    (h : angle_diff fuel
      (pixel_angle atan2f M_PI (-float_to_int radius) (-float_to_int radius))
      desired_angle = none) :
    draw_circle atan2f M_PI fuel center radius mouth_angle dir desired_angle = none := by
  unfold draw_circle
  simp only
  have h0 : 0 ∈ List.range (float_to_int radius * 2).toNat := by
    rw [List.mem_range]; omega
  apply for_each_none _ _ 0 h0
  apply for_each_none _ _ 0 h0
  have e : ((0 : ℕ) : Int) - float_to_int radius = -float_to_int radius := by simp
  rw [e, h]

/-- With `atan2f` within `[-4, 4]` and `M_PI` within `[3, 4]` the angle of an offset,
in degrees, is within `[-240, 240]`. -/
theorem pixel_angle_bound (atan2f : ℚ → ℚ → ℚ) (M_PI : ℚ) (dx dy : Int)
    (hat : ∀ y x, |atan2f y x| ≤ 4) (h1 : 3 ≤ M_PI) (h2 : M_PI ≤ 4) :
    |pixel_angle atan2f M_PI dx dy| ≤ 240 := by
  unfold pixel_angle
  simp only
  set a := atan2f (f32 (dy : ℚ)) (f32 (dx : ℚ)) with ha
  have hab := abs_le.mp (hat (f32 (dy : ℚ)) (f32 (dx : ℚ)))
  rw [← ha] at hab
  have hq1 : (45 : ℚ) ≤ 180 / M_PI := by rw [le_div_iff₀ (by linarith)]; linarith
  have hq2 : 180 / M_PI ≤ 60 := by rw [div_le_iff₀ (by linarith)]; linarith
  have c1 : ((45 : ℤ) : ℚ) ≤ f64 (180 / M_PI) :=
    int_le_f64 45 (by norm_num) (by norm_num) (by push_cast; exact hq1)
  have c2 : f64 (180 / M_PI) ≤ ((60 : ℤ) : ℚ) :=
    f64_le_int 60 (by norm_num) (by norm_num) (by push_cast; exact hq2)
  push_cast at c1 c2
  set c := f64 (180 / M_PI) with hc
  have p1 : -240 ≤ a * c := by nlinarith [hab.1, hab.2]
  have p2 : a * c ≤ 240 := by nlinarith [hab.1, hab.2]
  have d1 : ((-240 : ℤ) : ℚ) ≤ f64 (a * c) :=
    int_le_f64 (-240) (by norm_num) (by norm_num) (by push_cast; exact p1)
  have d2 : f64 (a * c) ≤ ((240 : ℤ) : ℚ) :=
    f64_le_int 240 (by norm_num) (by norm_num) (by push_cast; exact p2)
  have e1 : ((-240 : ℤ) : ℚ) ≤ f32 (f64 (a * c)) :=
    int_le_f32 (-240) (by norm_num) (by norm_num) d1
  have e2 : f32 (f64 (a * c)) ≤ ((240 : ℤ) : ℚ) :=
    f32_le_int 240 (by norm_num) (by norm_num) d2
  push_cast at e1 e2
  exact abs_le.mpr ⟨e1, e2⟩

theorem f32_2p33 : f32 8589934592 = 8589934592 := by
  have := f32_exact 8388608 10 (by norm_num) (by norm_num) (by norm_num)
  norm_num at this
  exact this

/-- An angle within `[-240, 240]` minus a desired angle of magnitude up to `2 ^ 32` is
a difference on which `angle_diff` returns. -/
theorem f32_sub_bound (angle t : ℚ) (ha : |angle| ≤ 240) (ht : |t| ≤ 4294967296) :
    |f32 (angle - t)| ≤ 8589934592 := by
  rw [abs_le] at ha ht ⊢
  constructor
  · have := f32_mono (show -8589934592 ≤ angle - t by linarith)
    rw [f32_neg, f32_2p33] at this
    exact this
  · have := f32_mono (show angle - t ≤ 8589934592 by linarith)
    rw [f32_2p33] at this
    exact this

/-- At the desired angle `10 ^ 10` the difference rounds to `-10 ^ 10` for every angle
within `[-240, 240]`, and the first loop never exits. -/
theorem angle_diff_hang (n : Nat) (angle : ℚ) (ha : |angle| ≤ 240) :
    angle_diff n angle 10000000000 = none := by
  rw [abs_le] at ha
  have hneg : angle - 10000000000 < 0 := by linarith
  have e : f32 (angle - 10000000000) = -10000000000 := by
    have := f32_eval (angle - 10000000000) 33 (-9765625)
      (by rw [abs_of_neg hneg]; norm_num; linarith)
      (by rw [abs_of_neg hneg]; norm_num; linarith)
      (by norm_num)
      (by
        have e2 : (angle - 10000000000) / 2 ^ ((33 : ℤ) - 23) - ((-9765625 : ℤ) : ℚ)
            = angle / 1024 := by
          norm_num; ring
        rw [e2, abs_lt]
        constructor
        · rw [lt_div_iff₀ (by norm_num)]; linarith
        · rw [div_lt_iff₀ (by norm_num)]; linarith)
    rw [this]; norm_num
  rw [angle_diff_eq, e, wrap_up_neg_1e10]
  rfl

/-- In a returned call `angle_diff` has returned at every offset of the square. -/
theorem draw_circle_some_angle (atan2f : ℚ → ℚ → ℚ) (M_PI : ℚ) (fuel : Nat) (center : Vec2)
    (radius mouth_angle : ℚ) (dir : Vec2) (desired_angle : ℚ) (L : List (Int × Int))
    (h : draw_circle atan2f M_PI fuel center radius mouth_angle dir desired_angle = some L)
    (dx dy : Int) (h1 : -float_to_int radius ≤ dx) (h2 : dx < float_to_int radius)
    (h3 : -float_to_int radius ≤ dy) (h4 : dy < float_to_int radius) :
    ∃ δ, angle_diff fuel (pixel_angle atan2f M_PI dx dy) desired_angle = some δ := by
  unfold draw_circle at h
  simp only at h
  obtain ⟨hall, _⟩ := for_each_some _ _ _ h
  have hw : (dx + float_to_int radius).toNat ∈ List.range (float_to_int radius * 2).toNat := by
    rw [List.mem_range]; omega
  have hi : (dy + float_to_int radius).toNat ∈ List.range (float_to_int radius * 2).toNat := by
    rw [List.mem_range]; omega
  have e1 : (((dx + float_to_int radius).toNat : ℕ) : Int) - float_to_int radius = dx := by
    omega
  have e2 : (((dy + float_to_int radius).toNat : ℕ) : Int) - float_to_int radius = dy := by
    omega
  obtain ⟨xs, hxs⟩ := hall _ hw
  obtain ⟨hall2, _⟩ := for_each_some _ _ _ hxs
  obtain ⟨ys, hys⟩ := hall2 _ hi
  simp only [e1, e2] at hys
  cases had : angle_diff fuel (pixel_angle atan2f M_PI dx dy) desired_angle with
  | none => rw [had] at hys; simp at hys
  | some δ => exact ⟨δ, rfl⟩

/-- Under the bounds on the library and on the desired angle, the call returns and
every returned list has exactly the points of the square, in the disc and outside the
wedge. -/
theorem draw_circle_spec (atan2f : ℚ → ℚ → ℚ) (M_PI : ℚ) (center : Vec2)
    (radius mouth_angle : ℚ) (dir : Vec2) (desired_angle : ℚ)
    (hat : ∀ y x, |atan2f y x| ≤ 4) (hpi1 : 3 ≤ M_PI) (hpi2 : M_PI ≤ 4)
    (ht : |desired_angle| ≤ 4294967296) :
    (∃ L, draw_circle_returns atan2f M_PI center radius mouth_angle dir desired_angle L) ∧
      ∀ L, draw_circle_returns atan2f M_PI center radius mouth_angle dir desired_angle L →
        ∀ px py : Int, (px, py) ∈ L ↔
          ∃ dx dy : Int,
            -float_to_int radius ≤ dx ∧ dx < float_to_int radius ∧
            -float_to_int radius ≤ dy ∧ dy < float_to_int radius ∧
            dx * dx + dy * dy ≤ float_to_int radius * float_to_int radius ∧
            (∃ δ, angle_diff_returns (pixel_angle atan2f M_PI dx dy) desired_angle δ ∧
              δ > f32 (mouth_angle / 2)) ∧
            px = float_to_int center.x + dx ∧ py = float_to_int center.y + dy := by
  constructor
  · obtain ⟨N, hN⟩ := angle_diff_returns_of_le
    obtain ⟨L, hL⟩ := draw_circle_returns_of atan2f M_PI N center radius mouth_angle dir
      desired_angle (fun dx dy => hN _ _
        (f32_sub_bound _ _ (pixel_angle_bound atan2f M_PI dx dy hat hpi1 hpi2) ht))
    exact ⟨L, N, hL⟩
  · rintro L ⟨fuel, hL⟩ px py
    rw [mem_draw_circle atan2f M_PI fuel center radius mouth_angle dir desired_angle L hL]
    constructor
    · rintro ⟨dx, dy, h1, h2, h3, h4, h5, ⟨δ, hδ, hgt⟩, h7, h8⟩
      exact ⟨dx, dy, h1, h2, h3, h4, h5, ⟨δ, ⟨fuel, hδ⟩, hgt⟩, h7, h8⟩
    · rintro ⟨dx, dy, h1, h2, h3, h4, h5, ⟨δ, ⟨n, hδ⟩, hgt⟩, h7, h8⟩
      obtain ⟨δ2, hδ2⟩ := draw_circle_some_angle atan2f M_PI fuel center radius mouth_angle
        dir desired_angle L hL dx dy h1 h2 h3 h4
      have := angle_diff_unique n fuel _ _ δ δ2 hδ hδ2
      subst this
      exact ⟨dx, dy, h1, h2, h3, h4, h5, ⟨δ, hδ2, hgt⟩, h7, h8⟩

theorem float_to_int_twelve : float_to_int 12 = 12 := by
  exact_mod_cast float_to_int_intCast 12

theorem float_to_int_center : float_to_int 408 = 408 := by
  exact_mod_cast float_to_int_intCast 408

/-- With radius 12 at centre (408, 408) the rightmost boundary pixel (420, 408) is in
no returned list, whatever `atan2f`, the mouth angle and the desired angle are: the
loop stops at `dx = 11`. -/
theorem rightmost_pixel_not_plotted (atan2f : ℚ → ℚ → ℚ) (M_PI : ℚ) (fuel : Nat) (m : ℚ)
    (dir : Vec2) (t : ℚ) (L : List (Int × Int))
    (h : draw_circle atan2f M_PI fuel ⟨408, 408⟩ 12 m dir t = some L) :
    ((420 : Int), (408 : Int)) ∉ L := by
  rw [mem_draw_circle atan2f M_PI fuel ⟨408, 408⟩ 12 m dir t L h]
  rintro ⟨dx, dy, h1, h2, h3, h4, h5, h6, h7, h8⟩
  simp only [float_to_int_twelve, float_to_int_center] at h2 h7
  omega

theorem f32_45_half : f32 (45 / 2) = 45 / 2 := by
  have := f32_exact 45 (-1) (by norm_num) (by norm_num) (by norm_num)
  norm_num at this ⊢
  exact this

/-- The angle of an offset whose `atan2f` is 0 is 0. -/
theorem pixel_angle_zero (atan2f : ℚ → ℚ → ℚ) (M_PI : ℚ) (dx dy : Int)
    (h : atan2f (f32 (dy : ℚ)) (f32 (dx : ℚ)) = 0) : pixel_angle atan2f M_PI dx dy = 0 := by
  unfold pixel_angle
  simp only [h, zero_mul]
  have : f64 0 = 0 := fp_round_zero 53 (-1022)
  rw [this, f32_zero]

/-- With `atan2f` equal to the `float` nearest to `-pi / 2` and `M_PI` the `double`
nearest to `pi`, the angle of an offset is between -92 and -89 degrees. -/
theorem pixel_angle_up (dx dy : Int) :
    -92 ≤ pixel_angle (fun _ _ => -13176795 / 8388608) (884279719003555 / 281474976710656)
        dx dy ∧
      pixel_angle (fun _ _ => -13176795 / 8388608) (884279719003555 / 281474976710656)
        dx dy ≤ -89 := by
  unfold pixel_angle
  simp only
  have c1 : ((57 : ℤ) : ℚ) ≤ f64 (180 / (884279719003555 / 281474976710656)) :=
    int_le_f64 57 (by norm_num) (by norm_num) (by norm_num)
  have c2 : f64 (180 / (884279719003555 / 281474976710656)) ≤ ((58 : ℤ) : ℚ) :=
    f64_le_int 58 (by norm_num) (by norm_num) (by norm_num)
  push_cast at c1 c2
  set c := f64 (180 / (884279719003555 / 281474976710656)) with hc
  have p1 : (-92 : ℚ) ≤ -13176795 / 8388608 * c := by linarith
  have p2 : (-13176795 : ℚ) / 8388608 * c ≤ -89 := by linarith
  have d1 : ((-92 : ℤ) : ℚ) ≤ f64 (-13176795 / 8388608 * c) :=
    int_le_f64 (-92) (by norm_num) (by norm_num) (by push_cast; exact p1)
  have d2 : f64 (-13176795 / 8388608 * c) ≤ ((-89 : ℤ) : ℚ) :=
    f64_le_int (-89) (by norm_num) (by norm_num) (by push_cast; exact p2)
  have e1 : ((-92 : ℤ) : ℚ) ≤ f32 (f64 (-13176795 / 8388608 * c)) :=
    int_le_f32 (-92) (by norm_num) (by norm_num) d1
  have e2 : f32 (f64 (-13176795 / 8388608 * c)) ≤ ((-89 : ℤ) : ℚ) :=
    f32_le_int (-89) (by norm_num) (by norm_num) d2
  push_cast at e1 e2
  exact ⟨e1, e2⟩

/-- Facing right (desired angle 0), an offset at about -90 degrees is at an angular
distance of 89 degrees or more. -/
theorem angle_diff_up (dx dy : Int) :
    ∃ δ, angle_diff_returns
        (pixel_angle (fun _ _ => -13176795 / 8388608) (884279719003555 / 281474976710656)
          dx dy) 0 δ ∧ δ > f32 (45 / 2) := by
  obtain ⟨a1, a2⟩ := pixel_angle_up dx dy
  set angle := pixel_angle (fun _ _ => -13176795 / 8388608)
    (884279719003555 / 281474976710656) dx dy with ha
  have b1 : ((-92 : ℤ) : ℚ) ≤ f32 (angle - 0) :=
    int_le_f32 (-92) (by norm_num) (by norm_num) (by push_cast; linarith)
  have b2 : f32 (angle - 0) ≤ ((-89 : ℤ) : ℚ) :=
    f32_le_int (-89) (by norm_num) (by norm_num) (by push_cast; linarith)
  push_cast at b1 b2
  refine ⟨|f32 (angle - 0)|, ⟨1, angle_diff_of_mem 0 angle 0 (by linarith) (by linarith)⟩, ?_⟩
  rw [f32_45_half, abs_of_neg (by linarith)]
  linarith

/-- C1, as the code has it: when the call returns, the pixels `draw_circle` plots
are exactly the points `(cx+dx, cy+dy)` with `dx`, `dy` in the half-open square
`-r ≤ dx < r`, `-r ≤ dy < r`, inside the disc `dx*dx + dy*dy ≤ r*r`, and at an angular
distance from the desired angle strictly greater than half the mouth angle, where
`r`, `cx`, `cy` are the `(int)` conversions of the radius and the centre, the angle
is the `float` the code computes and the half is the `float` quotient.  The call
returns when `atan2f` is within `[-4, 4]`, `M_PI` within `[3, 4]` and the desired
angle of magnitude up to `2 ^ 32`; the radius below `2 ^ 15` and the centre within
`2 ^ 30` keep the `int` arithmetic in range. -/
theorem draw_circle_pixel_set (atan2f : ℚ → ℚ → ℚ) (M_PI : ℚ) (center : Vec2)
    (radius mouth_angle : ℚ) (dir : Vec2) (desired_angle : ℚ)
    (hat : ∀ y x, |atan2f y x| ≤ 4) (hpi1 : 3 ≤ M_PI) (hpi2 : M_PI ≤ 4)
    (ht : |desired_angle| ≤ 4294967296) (_hr : |radius| < 32768)
    (_hcx : |center.x| ≤ 1073741824) (_hcy : |center.y| ≤ 1073741824) :
    (∃ L, draw_circle_returns atan2f M_PI center radius mouth_angle dir desired_angle L) ∧
      ∀ L, draw_circle_returns atan2f M_PI center radius mouth_angle dir desired_angle L →
        ∀ px py : Int, (px, py) ∈ L ↔
          ∃ dx dy : Int,
            -float_to_int radius ≤ dx ∧ dx < float_to_int radius ∧
            -float_to_int radius ≤ dy ∧ dy < float_to_int radius ∧
            dx * dx + dy * dy ≤ float_to_int radius * float_to_int radius ∧
            (∃ δ, angle_diff_returns (pixel_angle atan2f M_PI dx dy) desired_angle δ ∧
              δ > f32 (mouth_angle / 2)) ∧
            px = float_to_int center.x + dx ∧ py = float_to_int center.y + dy :=
  draw_circle_spec atan2f M_PI center radius mouth_angle dir desired_angle hat hpi1 hpi2 ht

/-- C1 at the call of `main`: centre (408, 408), radius 12, mouth angle 45, facing
right.  `atan2f` is the constant `float` nearest to `-pi / 2` and `M_PI` the `double`
nearest to `pi`. -/
theorem draw_circle_pixel_set_witness :
    (∃ L, draw_circle_returns (fun _ _ => -13176795 / 8388608)
        (884279719003555 / 281474976710656) ⟨408, 408⟩ 12 45 ⟨1, 0⟩ 0 L) ∧
      ∀ L, draw_circle_returns (fun _ _ => -13176795 / 8388608)
          (884279719003555 / 281474976710656) ⟨408, 408⟩ 12 45 ⟨1, 0⟩ 0 L →
        ∀ px py : Int, (px, py) ∈ L ↔
          ∃ dx dy : Int,
            -float_to_int 12 ≤ dx ∧ dx < float_to_int 12 ∧
            -float_to_int 12 ≤ dy ∧ dy < float_to_int 12 ∧
            dx * dx + dy * dy ≤ float_to_int 12 * float_to_int 12 ∧
            (∃ δ, angle_diff_returns
                (pixel_angle (fun _ _ => -13176795 / 8388608)
                  (884279719003555 / 281474976710656) dx dy) 0 δ ∧
              δ > f32 (45 / 2)) ∧
            px = float_to_int (408 : ℚ) + dx ∧ py = float_to_int (408 : ℚ) + dy :=
  draw_circle_pixel_set (fun _ _ => -13176795 / 8388608)
    (884279719003555 / 281474976710656) ⟨408, 408⟩ 12 45 ⟨1, 0⟩ 0
    (fun _ _ => by rw [abs_le]; constructor <;> norm_num) (by norm_num) (by norm_num)
    (by norm_num) (by rw [abs_lt]; constructor <;> norm_num)
    (by rw [abs_le]; constructor <;> norm_num) (by rw [abs_le]; constructor <;> norm_num)

/-- C1 fails at the desired angle `10 ^ 10`, a `float`: with centre (408, 408), radius
12 and mouth angle 45, for every `atan2f` within `[-4, 4]` and `M_PI` within `[3, 4]`,
`angle_diff` does not return at the first offset and `draw_circle` returns no set of
pixels, whatever the fuel. -/
theorem draw_circle_never_returns_at_1e10 :
    f32 10000000000 = 10000000000 ∧
      ∀ (atan2f : ℚ → ℚ → ℚ) (M_PI : ℚ), (∀ y x, |atan2f y x| ≤ 4) → 3 ≤ M_PI → M_PI ≤ 4 →
        ∀ L, ¬ draw_circle_returns atan2f M_PI ⟨408, 408⟩ 12 45 ⟨1, 0⟩ 10000000000 L := by
  refine ⟨f32_1e10, ?_⟩
  rintro atan2f M_PI hat h1 h2 L ⟨fuel, hL⟩
  rw [draw_circle_none atan2f M_PI fuel ⟨408, 408⟩ 12 45 ⟨1, 0⟩ 10000000000
    (by rw [float_to_int_twelve]; norm_num)
    (angle_diff_hang fuel _ (pixel_angle_bound atan2f M_PI _ _ hat h1 h2))] at hL
  simp at hL

/-- C2, as the code has it: for every `a` and `b` whose rounded difference has
magnitude up to `2 ^ 33`, `angle_diff(a,b)` and `angle_diff(b,a)` return the same
value, it lies in `[0, 180]`, and `angle_diff(a,a)` returns 0; with the same number of
loop tests allowed, the two calls agree for every `a` and `b`. -/
theorem angle_diff_symm_range_self (a b : ℚ) (h : |f32 (a - b)| ≤ 8589934592) :
    (∃ v, angle_diff_returns a b v ∧ angle_diff_returns b a v ∧ 0 ≤ v ∧ v ≤ 180) ∧
      angle_diff_returns a a 0 ∧ ∀ n, angle_diff n a b = angle_diff n b a := by
  obtain ⟨N, hN⟩ := angle_diff_returns_of_le
  obtain ⟨v, hv⟩ := hN a b h
  obtain ⟨r1, r2⟩ := angle_diff_range N a b v hv
  exact ⟨⟨v, ⟨N, hv⟩, ⟨N, by rw [angle_diff_symm]; exact hv⟩, r1, r2⟩,
    ⟨1, angle_diff_self 0 a⟩, fun n => (angle_diff_symm n a b).symm⟩

/-- C2 at `a = 350`, `b = -20`: the difference 370 is brought to 10. -/
theorem angle_diff_symm_range_self_witness :
    (∃ v, angle_diff_returns 350 (-20) v ∧ angle_diff_returns (-20) 350 v ∧ 0 ≤ v ∧ v ≤ 180) ∧
      angle_diff_returns 350 350 0 ∧ ∀ n, angle_diff n 350 (-20) = angle_diff n (-20) 350 :=
  angle_diff_symm_range_self 350 (-20) (by
    have := f32_int 370 (by norm_num) (by norm_num)
    norm_num at this ⊢
    rw [this]; norm_num)

/-- C2 fails at `a = 10 ^ 10`, `b = 0`: `10 ^ 10` is a `float`, `10 ^ 10 - 360` rounds
back to `10 ^ 10`, and the second loop never exits: the call returns no value. -/
theorem angle_diff_never_returns_at_1e10 :
    f32 10000000000 = 10000000000 ∧ f32 (10000000000 - 360) = 10000000000 ∧
      ¬ ∃ v, angle_diff_returns 10000000000 0 v := by
  refine ⟨f32_1e10, f32_1e10_sub_360, ?_⟩
  rintro ⟨v, n, hn⟩
  rw [angle_diff_1e10] at hn
  simp at hn

/-- C3, as the code has it: `angle_diff(a, b)` and `angle_diff(a + 360, b)` return
the same value whenever `a - b`, `a + 360` and `a + 360 - b` are `float`s (the three
operations are exact) and `a - b` has magnitude up to `2 ^ 26`; where `a - b` is
exactly -180 the value is 180. -/
theorem angle_diff_period_360 (a b : ℚ) (h1 : f32 (a - b) = a - b)
    (h2 : f32 (a + 360) = a + 360) (h3 : f32 (a + 360 - b) = a + 360 - b)
    (h4 : |a - b| ≤ 67108864) :
    ∃ v, angle_diff_returns a b v ∧ angle_diff_returns (f32 (a + 360)) b v ∧
      (a - b = -180 → v = 180) := by
  rw [abs_le] at h4
  obtain ⟨N, hN⟩ := angle_diff_returns_of_le
  obtain ⟨v, hv⟩ := hN a b (by rw [h1, abs_le]; constructor <;> linarith)
  obtain ⟨v', hv'⟩ := hN (f32 (a + 360)) b (by
    rw [h2, h3, abs_le]; constructor <;> linarith)
  obtain ⟨w, k, e1, l1, u1, c1⟩ := angle_diff_exact N a b v h1
    (by rw [abs_lt]; constructor <;> linarith) hv
  obtain ⟨w', k', e2, l2, u2, c2⟩ := angle_diff_exact N (f32 (a + 360)) b v'
    (by rw [h2, h3]) (by rw [h2, abs_lt]; constructor <;> linarith) hv'
  rw [h2] at c2
  have hvv : v = v' := by
    rw [e1, e2]
    apply abs_eq_of_congr w w' (k - k' - 1) ⟨l1, u1⟩ ⟨l2, u2⟩
    rw [c1, c2]; push_cast; ring
  refine ⟨v, ⟨N, hv⟩, ⟨N, by rw [hvv]; exact hv'⟩, fun h180 => ?_⟩
  have := angle_diff_of_mem 0 a b (by rw [h1, h180]) (by rw [h1, h180]; norm_num)
  rw [h1, h180] at this
  have hu := angle_diff_unique N 1 a b v _ hv this
  rw [hu]; norm_num

/-- C3 at `a = -190`, `b = -10`: `a - b` is exactly -180 and `a + 360 - b` exactly
180. -/
theorem angle_diff_period_360_witness :
    ∃ v, angle_diff_returns (-190) (-10) v ∧ angle_diff_returns (f32 (-190 + 360)) (-10) v ∧
      ((-190 : ℚ) - -10 = -180 → v = 180) :=
  angle_diff_period_360 (-190) (-10)
    (by have := f32_int (-180) (by norm_num) (by norm_num); norm_num at this ⊢; exact this)
    (by have := f32_int 170 (by norm_num) (by norm_num); norm_num at this ⊢; exact this)
    (by have := f32_int 180 (by norm_num) (by norm_num); norm_num at this ⊢; exact this)
    (by rw [abs_le]; constructor <;> norm_num)

/-- C3 fails at `a = 0.5`, `b` the `float` nearest to 0.1: `a + 360 = 360.5` is exact,
`angle_diff(a, b)` returns 13421773 / 2 ^ 25 (0.4000000059604645) and
`angle_diff(a + 360, b)` returns 13107 / 2 ^ 15 (0.399993896484375). -/
theorem angle_diff_period_fails_at_half :
    f32 (1 / 10) = 13421773 / 134217728 ∧ f32 (1 / 2 + 360) = 1 / 2 + 360 ∧
      angle_diff_returns (1 / 2) (13421773 / 134217728) (13421773 / 33554432) ∧
      angle_diff_returns (f32 (1 / 2 + 360)) (13421773 / 134217728) (13107 / 32768) ∧
      (13421773 / 33554432 : ℚ) ≠ 13107 / 32768 := by
  refine ⟨f32_tenth, by rw [f32_half_add_360]; norm_num, ⟨1, ?_⟩, ⟨2, ?_⟩, by norm_num⟩
  · have := angle_diff_of_mem 0 (1 / 2) (13421773 / 134217728)
      (by rw [f32_half_sub_tenth]; norm_num) (by rw [f32_half_sub_tenth]; norm_num)
    rw [this, f32_half_sub_tenth]
    norm_num [abs_of_pos]
  · rw [angle_diff_some_iff, f32_half_add_360, f32_360_half_sub_tenth]
    refine ⟨11809587 / 32768, 13107 / 32768, ?_, ?_, by norm_num [abs_of_pos]⟩
    · rw [wrap_up_succ, if_neg (by norm_num)]
    · rw [wrap_down_succ, if_pos (by norm_num), f32_sub_360_back, wrap_down_succ,
        if_neg (by norm_num)]

/-- C4: from mouth angle 45 with the flag false, the angle after any number of steps
of `update_pacman_mouth_angle` lies in `[5, 45]`; after 4 steps the angle is exactly
5 and the flag is true; and one step from any angle of `[5, 45]`, with either flag,
gives an angle of `[5, 45]`. -/
theorem mouth_oscillator_stays_in_range (n : Nat) (opening : Bool) (angle : ℚ)
    (h1 : 5 ≤ angle) (h2 : angle ≤ 45) :
    (5 ≤ (mouth_steps n (false, 45)).2 ∧ (mouth_steps n (false, 45)).2 ≤ 45) ∧
      mouth_steps 4 (false, 45) = (true, 5) ∧
      (5 ≤ (update_pacman_mouth_angle opening angle).2 ∧
        (update_pacman_mouth_angle opening angle).2 ≤ 45) :=
  ⟨mouth_steps_range n (false, 45) (by norm_num) (by norm_num), mouth_steps_four,
    update_pacman_mouth_angle_range opening angle h1 h2⟩

/-- The oscillator property at 9 steps and at the state (opening, 25). -/
theorem mouth_oscillator_stays_in_range_witness :
    ((5 : ℚ) ≤ 25 ∧ (25 : ℚ) ≤ 45) ∧
      (5 ≤ (mouth_steps 9 (false, 45)).2 ∧ (mouth_steps 9 (false, 45)).2 ≤ 45) ∧
      mouth_steps 4 (false, 45) = (true, 5) ∧
      (5 ≤ (update_pacman_mouth_angle true 25).2 ∧
        (update_pacman_mouth_angle true 25).2 ≤ 45) :=
  ⟨⟨by norm_num, by norm_num⟩,
    mouth_oscillator_stays_in_range 9 true 25 (by norm_num) (by norm_num)⟩

/-- C6, as the code has it: after the frame with only "right" held, `N` further
frames with no key held advance `position.x` by `N * SPEED` as long as `N ≤ 107`
(the frames before the screen wrap triggers), and after any number `M` of such frames
the direction is (1,0) and the facing angle 0. -/
theorem right_then_idle_advance (N M : Nat) (h : N ≤ 107) :
    (right_then_idle 0).player_pos.x = initial_state.player_pos.x + SPEED ∧
      (right_then_idle N).player_pos.x = (right_then_idle 0).player_pos.x + N * SPEED ∧
      (right_then_idle M).player_direction = ⟨1, 0⟩ ∧
      (right_then_idle M).desired_angle = 0 := by
  refine ⟨?_, ?_, right_then_idle_heading M⟩
  · rw [right_then_idle_start_x, initial_state_pos, SPEED_eq]
    norm_num
  · rw [right_then_idle_x N h, right_then_idle_start_x, SPEED_eq]
    push_cast
    ring

/-- The end-to-end property at the last frame before the wrap, `N = 107`, and the
heading after 500 idle frames. -/
theorem right_then_idle_advance_witness :
    107 ≤ 107 ∧
      (right_then_idle 0).player_pos.x = initial_state.player_pos.x + SPEED ∧
      (right_then_idle 107).player_pos.x = (right_then_idle 0).player_pos.x + (107 : ℕ) * SPEED ∧
      (right_then_idle 500).player_direction = ⟨1, 0⟩ ∧
      (right_then_idle 500).desired_angle = 0 :=
  ⟨le_refl 107, right_then_idle_advance 107 500 (le_refl 107)⟩

/-- C6 fails at `N = 108`: the 108th idle frame takes `x` from 840 to 844, past the
wrap threshold 840, and the wrap sets it to -12, while the start abscissa plus
`108 * SPEED` is 844. -/
theorem right_then_idle_wraps_at_108 :
    (right_then_idle 108).player_pos.x = -12 ∧
      (right_then_idle 0).player_pos.x + (108 : ℕ) * SPEED = 844 ∧
      (right_then_idle 108).player_pos.x ≠
        (right_then_idle 0).player_pos.x + (108 : ℕ) * SPEED := by
  have hx : (right_then_idle 108).player_pos.x = -12 := by
    rw [right_then_idle_step_x 107 840 (by rw [right_then_idle_x 107 (le_refl 107)])
      (by norm_num)]
    norm_num
  have hs : (right_then_idle 0).player_pos.x + (108 : ℕ) * SPEED = 844 := by
    rw [right_then_idle_start_x, SPEED_eq]
    norm_num
  refine ⟨hx, hs, ?_⟩
  rw [hx, hs]
  norm_num

/-- C7, as the code has it: for every position whose coordinates are `float`s of
magnitude up to `2 ^ 26`, `get_tile` gives the quotient of each coordinate by 24
truncated toward zero: the column has the sign of `x / 24` and the integer part of its
magnitude (likewise the row); a non-negative coordinate gives the floor of the
quotient; a coordinate strictly between -24 and 0 gives 0, where the floor is -1.
Position (0,0) gives tile (0,0), and the `float` position nearest to (23.9, 47.9)
gives tile (0,1). -/
theorem get_tile_truncates (pos : Vec2) (hx : f32 pos.x = pos.x) (hy : f32 pos.y = pos.y)
    (hxb : |pos.x| ≤ 67108864) (hyb : |pos.y| ≤ 67108864) :
    (|(((get_tile pos).col : ℤ) : ℚ)| ≤ |pos.x / 24| ∧
        |pos.x / 24| < |(((get_tile pos).col : ℤ) : ℚ)| + 1 ∧
        (0 ≤ pos.x → 0 ≤ (get_tile pos).col) ∧ (pos.x ≤ 0 → (get_tile pos).col ≤ 0)) ∧
      (|(((get_tile pos).row : ℤ) : ℚ)| ≤ |pos.y / 24| ∧
        |pos.y / 24| < |(((get_tile pos).row : ℤ) : ℚ)| + 1 ∧
        (0 ≤ pos.y → 0 ≤ (get_tile pos).row) ∧ (pos.y ≤ 0 → (get_tile pos).row ≤ 0)) ∧
      get_tile ⟨0, 0⟩ = ⟨0, 0⟩ ∧
      get_tile ⟨f32 (239 / 10), f32 (479 / 10)⟩ = ⟨0, 1⟩ ∧
      (0 ≤ pos.x → (get_tile pos).col = ⌊pos.x / 24⌋) ∧
      (0 ≤ pos.y → (get_tile pos).row = ⌊pos.y / 24⌋) ∧
      (-24 < pos.x → pos.x < 0 → (get_tile pos).col = 0 ∧ ⌊pos.x / 24⌋ = -1) ∧
      (-24 < pos.y → pos.y < 0 → (get_tile pos).row = 0 ∧ ⌊pos.y / 24⌋ = -1) := by
  have key : ∀ c : ℚ, f32 c = c → |c| ≤ 67108864 →
      (|((float_to_int (f32 (c / 24)) : ℤ) : ℚ)| ≤ |c / 24| ∧
        |c / 24| < |((float_to_int (f32 (c / 24)) : ℤ) : ℚ)| + 1 ∧
        (0 ≤ c → 0 ≤ float_to_int (f32 (c / 24))) ∧
        (c ≤ 0 → float_to_int (f32 (c / 24)) ≤ 0)) ∧
      (0 ≤ c → float_to_int (f32 (c / 24)) = ⌊c / 24⌋) ∧
      (-24 < c → c < 0 → float_to_int (f32 (c / 24)) = 0 ∧ ⌊c / 24⌋ = -1) := by
    intro c hc hcb
    rw [abs_le] at hcb
    rw [tile_eq_trunc c hc hcb.1 hcb.2]
    obtain ⟨t1, t2, t3, t4⟩ := float_to_int_trunc (c / 24)
    refine ⟨⟨t1, t2, fun hc => t3 (div_nonneg hc (by norm_num)),
      fun hc => t4 (div_nonpos_of_nonpos_of_nonneg hc (by norm_num))⟩,
      fun hc => float_to_int_of_nonneg _ (div_nonneg hc (by norm_num)), ?_⟩
    intro hl hu
    have hneg : c / 24 < 0 := div_neg_of_neg_of_pos hu (by norm_num)
    have hgt : (-1 : ℚ) < c / 24 := by rw [lt_div_iff₀ (by norm_num)]; linarith
    constructor
    · rw [float_to_int_of_neg _ hneg, Int.ceil_eq_iff]
      constructor
      · push_cast; linarith
      · push_cast; linarith
    · rw [Int.floor_eq_iff]
      constructor
      · push_cast; linarith
      · push_cast; linarith
  have e0 : float_to_int (f32 (0 / 24)) = 0 := by
    rw [zero_div, f32_zero]; simp [float_to_int]
  have e1 : float_to_int (f32 (f32 (239 / 10) / 24)) = 0 := by
    have hlo : (0 : ℚ) ≤ f32 (239 / 10) := by
      have := int_le_f32 (x := 239 / 10) 0 (by norm_num) (by norm_num) (by norm_num)
      simpa using this
    have hhi : f32 (239 / 10) ≤ 765 / 32 := by
      have ex := f32_exact 765 (-5) (by norm_num) (by norm_num) (by norm_num)
      have := f32_mono (show (239 : ℚ) / 10 ≤ (765 : ℤ) * 2 ^ (-5 : ℤ) by norm_num)
      rw [ex] at this
      norm_num at this
      exact this
    have := tile_of_bounds (f32 (239 / 10)) 0 8 (by simpa using hlo) (by norm_num; linarith)
      (by norm_num) (by norm_num)
    simpa using this
  have e2 : float_to_int (f32 (f32 (479 / 10) / 24)) = 1 := by
    have hlo : (24 : ℚ) ≤ f32 (479 / 10) := by
      have := int_le_f32 (x := 479 / 10) 24 (by norm_num) (by norm_num) (by norm_num)
      simpa using this
    have hhi : f32 (479 / 10) ≤ 1533 / 32 := by
      have ex := f32_exact 1533 (-5) (by norm_num) (by norm_num) (by norm_num)
      have := f32_mono (show (479 : ℚ) / 10 ≤ (1533 : ℤ) * 2 ^ (-5 : ℤ) by norm_num)
      rw [ex] at this
      norm_num at this
      exact this
    have := tile_of_bounds (f32 (479 / 10)) 1 8 (by simpa using hlo) (by norm_num; linarith)
      (by norm_num) (by norm_num)
    simpa using this
  unfold get_tile TILE_SIZE
  simp only [e0, e1, e2]
  exact ⟨(key pos.x hx hxb).1, (key pos.y hy hyb).1, trivial, trivial, (key pos.x hx hxb).2.1,
    (key pos.y hy hyb).2.1, (key pos.x hx hxb).2.2, (key pos.y hy hyb).2.2⟩

theorem f32_neg_one : f32 (-1) = -1 := by
  have := f32_int (-1) (by norm_num) (by norm_num)
  norm_num at this ⊢
  exact this

theorem f32_fifty : f32 50 = 50 := by
  have := f32_int 50 (by norm_num) (by norm_num)
  norm_num at this ⊢
  exact this

/-- The tile of position (-1, 50): column 0, where the floor is -1, and row 2. -/
theorem get_tile_truncates_witness :
    (get_tile ⟨-1, 50⟩).col = 0 ∧ ⌊(-1 : ℚ) / 24⌋ = -1 ∧
      (get_tile ⟨-1, 50⟩).row = ⌊(50 : ℚ) / 24⌋ :=
  ⟨((get_tile_truncates ⟨-1, 50⟩ f32_neg_one f32_fifty
      (by rw [abs_le]; constructor <;> norm_num)
      (by rw [abs_le]; constructor <;> norm_num)).2.2.2.2.2.2.1 (by norm_num) (by norm_num)).1,
    ((get_tile_truncates ⟨-1, 50⟩ f32_neg_one f32_fifty
      (by rw [abs_le]; constructor <;> norm_num)
      (by rw [abs_le]; constructor <;> norm_num)).2.2.2.2.2.2.1 (by norm_num) (by norm_num)).2,
    (get_tile_truncates ⟨-1, 50⟩ f32_neg_one f32_fifty
      (by rw [abs_le]; constructor <;> norm_num)
      (by rw [abs_le]; constructor <;> norm_num)).2.2.2.2.2.1 (by norm_num)⟩

/-- C7 fails at `x = 4 * 10 ^ 8`, a `float`: the `float` quotient by 24 rounds up to
16666667, which is the column, while the quotient truncated (and its floor) is
16666666. -/
theorem get_tile_rounds_up_at_4e8 :
    f32 400000000 = 400000000 ∧ (get_tile ⟨400000000, 0⟩).col = 16666667 ∧
      ⌊(400000000 : ℚ) / 24⌋ = 16666666 ∧ float_to_int ((400000000 : ℚ) / 24) = 16666666 := by
  have hfl : ⌊(400000000 : ℚ) / 24⌋ = 16666666 := by
    rw [Int.floor_eq_iff]; norm_num
  refine ⟨f32_4e8, ?_, hfl, ?_⟩
  · unfold get_tile TILE_SIZE
    simp only
    rw [f32_4e8_div_24]
    exact_mod_cast float_to_int_intCast 16666667
  · rw [float_to_int_of_nonneg _ (by norm_num), hfl]

/-- C8: the first held key in the order up, down, left, right alone fixes the result
of `handle_keypress`: direction (0,-1) and angle -90, (0,1) and 90, (-1,0) and 180,
or (1,0) and 0; with none of the four held, direction and angle come back unchanged.
Hence a previous direction among (0,-1), (0,1), (-1,0), (1,0), (0,0) gives a new
direction among them. -/
theorem handle_keypress_priority (keystate : KeyState) (dir : Vec2) (angle : ℚ) :
    handle_keypress keystate dir angle =
        (if keystate.W || keystate.UP then (⟨0, -1⟩, -90)
         else if keystate.S || keystate.DOWN then (⟨0, 1⟩, 90)
         else if keystate.A || keystate.LEFT then (⟨-1, 0⟩, 180)
         else if keystate.D || keystate.RIGHT then (⟨1, 0⟩, 0)
         else (dir, angle)) ∧
      (axis_direction dir → axis_direction (handle_keypress keystate dir angle).1) :=
  ⟨handle_keypress_cases keystate dir angle, handle_keypress_axis keystate dir angle⟩

/-- With "down", "a" and "right" held while moving down, "down" wins. -/
theorem handle_keypress_priority_witness :
    axis_direction ⟨0, 1⟩ ∧
      axis_direction
        (handle_keypress ⟨false, false, false, true, true, false, false, true⟩ ⟨0, 1⟩ 90).1 ∧
      handle_keypress ⟨false, false, false, true, true, false, false, true⟩ ⟨0, 1⟩ 90 =
        (⟨0, 1⟩, 90) := by
  have h0 : axis_direction ⟨0, 1⟩ := by unfold axis_direction; simp
  have h := handle_keypress_priority
    ⟨false, false, false, true, true, false, false, true⟩ ⟨0, 1⟩ 90
  refine ⟨h0, h.2 h0, ?_⟩
  rw [h.1]; simp

/-- C9, as the code has it: for integer offsets `dx`, `dy` of the half-open square
`-r ≤ dx < r`, `-r ≤ dy < r` that the loops visit, with `dx*dx + dy*dy = r*r` exactly,
the pixel `(cx+dx, cy+dy)` passes the disc test and is plotted whenever the angular
distance `angle_diff` returns for it is greater than the `float` `mouth_angle / 2`.
The call returns when `atan2f` is within `[-4, 4]`, `M_PI` within `[3, 4]` and the
desired angle of magnitude up to `2 ^ 32`; the radius below `2 ^ 15` and the centre
within `2 ^ 30` keep the `int` arithmetic in range. -/
theorem disc_boundary_inclusive_in_square (atan2f : ℚ → ℚ → ℚ) (M_PI : ℚ) (center : Vec2)
    (radius mouth_angle : ℚ) (dir : Vec2) (desired_angle : ℚ) (dx dy : Int) (δ : ℚ)
    (hat : ∀ y x, |atan2f y x| ≤ 4) (hpi1 : 3 ≤ M_PI) (hpi2 : M_PI ≤ 4)
    (ht : |desired_angle| ≤ 4294967296) (_hr : |radius| < 32768)
    (_hcx : |center.x| ≤ 1073741824) (_hcy : |center.y| ≤ 1073741824)
    (hx1 : -float_to_int radius ≤ dx) (hx2 : dx < float_to_int radius)
    (hy1 : -float_to_int radius ≤ dy) (hy2 : dy < float_to_int radius)
    (hb : dx * dx + dy * dy = float_to_int radius * float_to_int radius)
    (ha : angle_diff_returns (pixel_angle atan2f M_PI dx dy) desired_angle δ)
    (hgt : δ > f32 (mouth_angle / 2)) :
    (∃ L, draw_circle_returns atan2f M_PI center radius mouth_angle dir desired_angle L) ∧
      ∀ L, draw_circle_returns atan2f M_PI center radius mouth_angle dir desired_angle L →
        (float_to_int center.x + dx, float_to_int center.y + dy) ∈ L := by
  obtain ⟨hex, hall⟩ := draw_circle_spec atan2f M_PI center radius mouth_angle dir
    desired_angle hat hpi1 hpi2 ht
  refine ⟨hex, fun L hL => ?_⟩
  rw [hall L hL]
  exact ⟨dx, dy, hx1, hx2, hy1, hy2, le_of_eq hb, ⟨δ, ha, hgt⟩, rfl, rfl⟩

/-- Radius 12 at centre (408, 408), mouth angle 45, facing right (desired angle 0): the
topmost boundary offset (0, -12) is plotted.  The library values are those of IEEE
single and double precision: `atan2f(-12, 0)` is the `float` nearest to `-pi / 2` and
`M_PI` the `double` nearest to `pi`. -/
theorem disc_boundary_inclusive_in_square_witness :
    (∃ L, draw_circle_returns (fun _ _ => -13176795 / 8388608)
        (884279719003555 / 281474976710656) ⟨408, 408⟩ 12 45 ⟨1, 0⟩ 0 L) ∧
      ∀ L, draw_circle_returns (fun _ _ => -13176795 / 8388608)
          (884279719003555 / 281474976710656) ⟨408, 408⟩ 12 45 ⟨1, 0⟩ 0 L →
        ((408 : Int), (396 : Int)) ∈ L := by
  obtain ⟨δ, hδ, hgt⟩ := angle_diff_up 0 (-12)
  have h := disc_boundary_inclusive_in_square (fun _ _ => -13176795 / 8388608)
    (884279719003555 / 281474976710656) ⟨408, 408⟩ 12 45 ⟨1, 0⟩ 0 0 (-12) δ
    (fun _ _ => by rw [abs_le]; constructor <;> norm_num) (by norm_num) (by norm_num)
    (by norm_num) (by rw [abs_lt]; constructor <;> norm_num)
    (by rw [abs_le]; constructor <;> norm_num) (by rw [abs_le]; constructor <;> norm_num)
    (by rw [float_to_int_twelve]; norm_num) (by rw [float_to_int_twelve]; norm_num)
    (by rw [float_to_int_twelve]) (by rw [float_to_int_twelve]; norm_num)
    (by rw [float_to_int_twelve]; norm_num) hδ hgt
  refine ⟨h.1, fun L hL => ?_⟩
  have := h.2 L hL
  simpa only [float_to_int_center, show (408 : Int) + 0 = 408 by norm_num,
    show (408 : Int) + -12 = 396 by norm_num] using this

/-- C9 fails at the offset (12, 0): with centre (408, 408), radius 12, mouth angle 45
and desired angle 180 (facing left), `12*12 + 0*0 = 12*12`; for every `atan2f` with
`atan2f(0, 12) = 0` the angular distance `angle_diff` returns for the offset is
180 > 22.5; the call returns for every `atan2f` within `[-4, 4]` and `M_PI` within
`[3, 4]`; and the pixel (420, 408) is in no returned list. -/
theorem disc_boundary_rightmost_not_drawn :
    ((12 : Int) * 12 + 0 * 0 = 12 * 12) ∧
      (∀ (atan2f : ℚ → ℚ → ℚ) (M_PI : ℚ), atan2f 0 12 = 0 →
        angle_diff_returns (pixel_angle atan2f M_PI 12 0) 180 180 ∧
          (180 : ℚ) > f32 (45 / 2)) ∧
      (∀ (atan2f : ℚ → ℚ → ℚ) (M_PI : ℚ), (∀ y x, |atan2f y x| ≤ 4) → 3 ≤ M_PI → M_PI ≤ 4 →
        ∃ L, draw_circle_returns atan2f M_PI ⟨408, 408⟩ 12 45 ⟨-1, 0⟩ 180 L) ∧
      (∀ (atan2f : ℚ → ℚ → ℚ) (M_PI : ℚ) (L : List (Int × Int)),
        draw_circle_returns atan2f M_PI ⟨408, 408⟩ 12 45 ⟨-1, 0⟩ 180 L →
          (float_to_int 408 + 12, float_to_int 408 + 0) ∉ L) := by
  refine ⟨by norm_num, ?_, ?_, ?_⟩
  · intro atan2f M_PI h
    have h12 : f32 (((12 : Int)) : ℚ) = 12 := by
      have := f32_int 12 (by norm_num) (by norm_num); push_cast at this ⊢; exact this
    have h0 : f32 (((0 : Int)) : ℚ) = 0 := by
      have := f32_int 0 (by norm_num) (by norm_num); push_cast at this ⊢; exact this
    have hz := pixel_angle_zero atan2f M_PI 12 0 (by rw [h12, h0]; exact h)
    have hd : f32 ((0 : ℚ) - 180) = -180 := by
      have := f32_int (-180) (by norm_num) (by norm_num); norm_num at this ⊢; exact this
    refine ⟨⟨1, ?_⟩, by rw [f32_45_half]; norm_num⟩
    rw [hz]
    have := angle_diff_of_mem 0 0 180 (by rw [hd]) (by rw [hd]; norm_num)
    rw [this, hd]
    norm_num
  · intro atan2f M_PI hat h1 h2
    exact (draw_circle_spec atan2f M_PI ⟨408, 408⟩ 12 45 ⟨-1, 0⟩ 180 hat h1 h2
      (by rw [abs_le]; constructor <;> norm_num)).1
  · rintro atan2f M_PI L ⟨fuel, hL⟩
    have h := rightmost_pixel_not_plotted atan2f M_PI fuel 45 ⟨-1, 0⟩ 180 L hL
    simpa only [float_to_int_center, show (408 : Int) + 12 = 420 by norm_num,
      show (408 : Int) + 0 = 408 by norm_num] using h

/-- C10: after the wrap step of a frame each coordinate lies in
`[-2*PLAYER_RADIUS, WINDOW + 2*PLAYER_RADIUS] = [-24, 840]`, for every position and
direction the frame starts from; so in every state reached from the initial state
by frames, under any sequence of keyboard states, both coordinates lie in
`[-24, 840]` and the tile of `get_tile` has column and row in `[-1, 35]`. -/
theorem position_and_tile_bounded (pos dir : Vec2) (k : KeyState) (s : GameState)
    (keys : List KeyState) :
    (-(2 * PLAYER_RADIUS) = -24 ∧ WINDOW_WIDTH + 2 * PLAYER_RADIUS = 840 ∧
        WINDOW_HEIGHT + 2 * PLAYER_RADIUS = 840) ∧
      ((-24 ≤ (screen_wrap (update_player_position pos dir)).x ∧
          (screen_wrap (update_player_position pos dir)).x ≤ 840) ∧
        (-24 ≤ (screen_wrap (update_player_position pos dir)).y ∧
          (screen_wrap (update_player_position pos dir)).y ≤ 840)) ∧
      ((-24 ≤ (frame k s).player_pos.x ∧ (frame k s).player_pos.x ≤ 840) ∧
        (-24 ≤ (frame k s).player_pos.y ∧ (frame k s).player_pos.y ≤ 840)) ∧
      ((-24 ≤ (run_frames keys initial_state).player_pos.x ∧
          (run_frames keys initial_state).player_pos.x ≤ 840) ∧
        (-24 ≤ (run_frames keys initial_state).player_pos.y ∧
          (run_frames keys initial_state).player_pos.y ≤ 840)) ∧
      (-1 ≤ (get_tile (run_frames keys initial_state).player_pos).col ∧
        (get_tile (run_frames keys initial_state).player_pos).col ≤ 35) ∧
      (-1 ≤ (get_tile (run_frames keys initial_state).player_pos).row ∧
        (get_tile (run_frames keys initial_state).player_pos).row ≤ 35) := by
  have hr := run_frames_band keys initial_state initial_state_band
  refine ⟨?_, screen_wrap_band _, ?_, hr, ?_, ?_⟩
  · unfold PLAYER_RADIUS WINDOW_WIDTH WINDOW_HEIGHT; norm_num
  · rw [frame_pos]; exact screen_wrap_band _
  · exact float_to_int_tile_band _ hr.1
  · exact float_to_int_tile_band _ hr.2

end Pacman
